import Mathlib

/-!
Formal model of the theme-browser-registry indexer (`src/indexer/`).

Python values flowing through the indexer (JSON payloads, cache payloads,
registry entries) are modelled by the inductive type `Val`.  Python `dict`s
are ordered association lists `List (String × Val)`: insertion order is
significant because `json.dumps` serializes keys in insertion order and the
registry artifact's bytes depend on it.  Assignment to an existing key keeps
its position (`setKey`); assignment to a fresh key appends.

Machine-level concerns that the claims do not touch (UTF-8 details of
`json.dumps`, SQLite durability) are abstracted: a cache row stores the
decoded payload value, which is faithful because the store round-trips
payloads through `json.dumps`/`json.loads`, an identity on the value level.
-/

namespace Indexer

/-- Model of a Python/JSON value as manipulated by the indexer. -/
inductive Val where
  | null
  | bool (b : Bool)
  | int (n : Int)
  | str (s : String)
  | arr (elems : List Val)
  | obj (fields : List (String × Val))

/-- Model of Python truthiness for an optional value (`None` and a missing
key are falsy; `0`, `""`, `[]`, `{}`, `False` are falsy). -/
def pyTruthy : Option Val → Bool
  | none => false
  | some Val.null => false
  | some (Val.bool b) => b
  | some (Val.int n) => n != 0
  | some (Val.str s) => s != ""
  | some (Val.arr xs) => !xs.isEmpty
  | some (Val.obj fs) => !fs.isEmpty

/-- Model of Python `x or y` on an optional left operand (`d.get(k) or y`). -/
def pyOr (v : Option Val) (dflt : Val) : Val :=
  match v with
  | none => dflt
  | some w => if pyTruthy (some w) then w else dflt

/-- Model of `isinstance(v, int)`; in Python `bool` is a subclass of `int`. -/
def isIntLike : Option Val → Bool
  | some (Val.int _) => true
  | some (Val.bool _) => true
  | _ => false

/-- Numeric value of an int-like Python value (`True` counts as 1). -/
def intLikeVal : Val → Int
  | Val.int n => n
  | Val.bool b => if b then 1 else 0
  | _ => 0

/-- Model of Python `str(v)` for the values that can appear in the
`below min_stars` message. -/
def pyStr : Val → String
  | Val.int n => toString n
  | Val.bool b => if b then "True" else "False"
  | Val.str s => s
  | _ => ""

/-- Model of `d.get(k)` on an ordered dict: first (only) binding of `k`. -/
def lookupKey {α : Type} (k : String) : List (String × α) → Option α
  | [] => none
  | (k', v) :: rest => if k' = k then some v else lookupKey k rest

/-- Model of `d[k] = v` on an ordered dict: replace in place, else append. -/
def setKey {α : Type} (k : String) (v : α) : List (String × α) → List (String × α)
  | [] => [(k, v)]
  | (k', v') :: rest => if k' = k then (k, v) :: rest else (k', v') :: setKey k v rest

/-- Model of `d.pop(k, None)` on an ordered dict (drops the binding of `k`). -/
def removeKey {α : Type} (k : String) : List (String × α) → List (String × α)
  | [] => []
  | (k', v') :: rest => if k' = k then rest else (k', v') :: removeKey k rest

@[simp] theorem lookupKey_nil {α : Type} (k : String) :
    lookupKey k ([] : List (String × α)) = none := rfl

theorem lookupKey_cons {α : Type} (k k' : String) (v : α) (rest : List (String × α)) :
    lookupKey k ((k', v) :: rest) = if k' = k then some v else lookupKey k rest := rfl

theorem lookupKey_setKey_self {α : Type} (k : String) (v : α) (l : List (String × α)) :
    lookupKey k (setKey k v l) = some v := by
  induction l with
  | nil => simp [setKey, lookupKey]
  | cons hd tl ih =>
    obtain ⟨k', v'⟩ := hd
    by_cases h : k' = k
    · simp [setKey, lookupKey, h]
    · simp [setKey, lookupKey, h, ih]

theorem lookupKey_setKey_ne {α : Type} (k j : String) (v : α) (l : List (String × α))
    (h : j ≠ k) : lookupKey j (setKey k v l) = lookupKey j l := by
  induction l with
  | nil => simp [setKey, lookupKey, Ne.symm h]
  | cons hd tl ih =>
    obtain ⟨k', v'⟩ := hd
    by_cases hk : k' = k
    · subst hk
      simp [setKey, lookupKey, Ne.symm h]
    · by_cases hj : k' = j
      · subst hj
        simp [setKey, lookupKey, h]
      · simp [setKey, lookupKey, hk, hj, ih]

theorem lookupKey_eq_none {α : Type} (k : String) (l : List (String × α))
    (h : k ∉ l.map Prod.fst) : lookupKey k l = none := by
  induction l with
  | nil => rfl
  | cons hd tl ih =>
    obtain ⟨k', v'⟩ := hd
    simp only [List.map_cons, List.mem_cons] at h
    push_neg at h
    simp [lookupKey, Ne.symm h.1, ih h.2]

theorem lookupKey_removeKey_self {α : Type} (k : String) (l : List (String × α))
    (hnd : (l.map Prod.fst).Nodup) : lookupKey k (removeKey k l) = none := by
  induction l with
  | nil => simp [removeKey]
  | cons hd tl ih =>
    obtain ⟨k', v'⟩ := hd
    simp only [List.map_cons, List.nodup_cons] at hnd
    by_cases h : k' = k
    · subst h
      simp only [removeKey, if_pos rfl]
      exact lookupKey_eq_none k' tl hnd.1
    · simp only [removeKey, if_neg h, lookupKey, if_neg h]
      exact ih hnd.2

theorem lookupKey_removeKey_ne {α : Type} (k j : String) (l : List (String × α))
    (h : j ≠ k) : lookupKey j (removeKey k l) = lookupKey j l := by
  induction l with
  | nil => simp [removeKey]
  | cons hd tl ih =>
    obtain ⟨k', v'⟩ := hd
    by_cases hk : k' = k
    · subst hk
      simp [removeKey, lookupKey, Ne.symm h]
    · by_cases hj : k' = j
      · subst hj
        simp [removeKey, lookupKey, h, hk]
      · simp [removeKey, lookupKey, hk, hj, ih]

/-! ## Merge engine (`src/indexer/merge.py`)

`_deep_merge` copies the base dict, then walks override items in order; an
override value that is a dict merging onto a current dict value recurses,
anything else (including lists) replaces the value wholly. -/

/-- Model of `merge._deep_merge(base, override)`. -/
def deepMerge (base : List (String × Val)) : List (String × Val) → List (String × Val)
  | [] => base
  | (k, v) :: rest =>
    match v, lookupKey k base with
    | Val.obj o, some (Val.obj b) => deepMerge (setKey k (Val.obj (deepMerge b o)) base) rest
    | w, _ => deepMerge (setKey k w base) rest
termination_by ov => sizeOf ov
decreasing_by all_goals simp_wf <;> omega

/-- Helper: the guard of the recursive branch of `_deep_merge`
(`isinstance(value, dict) and isinstance(merged.get(key), dict)`). -/
def isObjPair : Val → Option Val → Bool
  | Val.obj _, some (Val.obj _) => true
  | _, _ => false

theorem deepMerge_nil (base : List (String × Val)) : deepMerge base [] = base := by
  conv_lhs => rw [deepMerge.eq_def]

theorem deepMerge_cons_obj (base : List (String × Val)) (k : String)
    (o b : List (String × Val)) (rest : List (String × Val))
    (h : lookupKey k base = some (Val.obj b)) :
    deepMerge base ((k, Val.obj o) :: rest)
      = deepMerge (setKey k (Val.obj (deepMerge b o)) base) rest := by
  conv_lhs => rw [deepMerge.eq_def]
  simp only [h]

theorem deepMerge_cons_repl (base : List (String × Val)) (k : String) (v : Val)
    (rest : List (String × Val)) (h : isObjPair v (lookupKey k base) = false) :
    deepMerge base ((k, v) :: rest) = deepMerge (setKey k v base) rest := by
  conv_lhs => rw [deepMerge.eq_def]
  cases v <;> cases hb : lookupKey k base <;> simp_all [isObjPair]
  rename_i w
  cases w <;> simp_all

/-- Pointwise description of `_deep_merge`: what the merged dict binds a key
to, as a function of what the override and the base bind it to. -/
def mergedLookup (vo vb : Option Val) : Option Val :=
  match vo, vb with
  | some (Val.obj o), some (Val.obj b) => some (Val.obj (deepMerge b o))
  | some v, _ => some v
  | none, r => r

theorem mergedLookup_none (vb : Option Val) : mergedLookup none vb = vb := rfl

theorem isObjPair_true (v : Val) (r : Option Val) (h : isObjPair v r = true) :
    ∃ o b, v = Val.obj o ∧ r = some (Val.obj b) := by
  unfold isObjPair at h
  split at h
  · rename_i o b
    exact ⟨o, b, rfl, rfl⟩
  · simp at h

theorem mergedLookup_of_not_objPair (v : Val) (vb : Option Val)
    (h : isObjPair v vb = false) : mergedLookup (some v) vb = some v := by
  cases v <;> cases vb <;> simp_all [isObjPair, mergedLookup]
  rename_i w
  cases w <;> simp_all [mergedLookup]

theorem deepMerge_lookup (ov : List (String × Val)) (base : List (String × Val))
    (hnd : (ov.map Prod.fst).Nodup) (k : String) :
    lookupKey k (deepMerge base ov) = mergedLookup (lookupKey k ov) (lookupKey k base) := by
  induction ov generalizing base with
  | nil => simp [deepMerge_nil, lookupKey, mergedLookup]
  | cons hd rest ih =>
    obtain ⟨k', v'⟩ := hd
    simp only [List.map_cons, List.nodup_cons] at hnd
    by_cases hkk : k' = k
    · subst hkk
      have hrest : lookupKey k' rest = none := lookupKey_eq_none k' rest hnd.1
      by_cases hop : isObjPair v' (lookupKey k' base) = true
      · obtain ⟨o, b, rfl, hb⟩ := isObjPair_true v' _ hop
        rw [deepMerge_cons_obj base k' o b rest hb, ih _ hnd.2, hrest, mergedLookup_none,
          lookupKey_setKey_self, lookupKey_cons, if_pos rfl, hb, mergedLookup]
      · rw [deepMerge_cons_repl base k' v' rest (by simpa using hop), ih _ hnd.2, hrest,
          mergedLookup_none, lookupKey_setKey_self, lookupKey_cons, if_pos rfl,
          mergedLookup_of_not_objPair v' _ (by simpa using hop)]
    · have hcons : lookupKey k ((k', v') :: rest) = lookupKey k rest := by
        simp [lookupKey, hkk]
      by_cases hop : isObjPair v' (lookupKey k' base) = true
      · obtain ⟨o, b, rfl, hb⟩ := isObjPair_true v' _ hop
        rw [deepMerge_cons_obj base k' o b rest hb, ih _ hnd.2, hcons,
          lookupKey_setKey_ne k' k _ base (Ne.symm hkk)]
      · rw [deepMerge_cons_repl base k' v' rest (by simpa using hop), ih _ hnd.2, hcons,
          lookupKey_setKey_ne k' k _ base (Ne.symm hkk)]

theorem mem_setKey {α : Type} (k : String) (v : α) (l : List (String × α))
    (kv : String × α) (h : kv ∈ setKey k v l) : kv = (k, v) ∨ kv ∈ l := by
  induction l with
  | nil => simpa [setKey] using h
  | cons hd tl ih =>
    obtain ⟨k', v'⟩ := hd
    by_cases hk : k' = k
    · subst hk
      simp only [setKey, if_pos rfl, List.mem_cons, eq_self_iff_true, if_true] at h
      rcases h with h | h
      · exact Or.inl h
      · exact Or.inr (List.mem_cons_of_mem _ h)
    · simp only [setKey, if_neg hk, List.mem_cons] at h
      rcases h with h | h
      · exact Or.inr (by simp [h])
      · rcases ih h with h2 | h2
        · exact Or.inl h2
        · exact Or.inr (List.mem_cons_of_mem _ h2)

theorem mem_removeKey {α : Type} (k : String) (l : List (String × α))
    (kv : String × α) (h : kv ∈ removeKey k l) : kv ∈ l := by
  induction l with
  | nil => simp [removeKey] at h
  | cons hd tl ih =>
    obtain ⟨k', v'⟩ := hd
    by_cases hk : k' = k
    · subst hk
      simp only [removeKey, eq_self_iff_true, if_true] at h
      exact List.mem_cons_of_mem _ h
    · simp only [removeKey, if_neg hk, List.mem_cons] at h
      rcases h with h | h
      · exact by simp [h]
      · exact List.mem_cons_of_mem _ (ih h)

theorem nodupKeys_setKey {α : Type} (k : String) (v : α) (l : List (String × α))
    (h : (l.map Prod.fst).Nodup) : ((setKey k v l).map Prod.fst).Nodup := by
  induction l with
  | nil => simp [setKey]
  | cons hd tl ih =>
    obtain ⟨k', v'⟩ := hd
    simp only [List.map_cons, List.nodup_cons] at h
    by_cases hk : k' = k
    · subst hk
      simpa [setKey] using h
    · simp only [setKey, if_neg hk, List.map_cons, List.nodup_cons]
      refine ⟨fun hm => ?_, ih h.2⟩
      have : ∃ w, (k', w) ∈ setKey k v tl := by
        obtain ⟨p, hp, he⟩ := List.mem_map.1 hm
        exact ⟨p.2, by simpa [← he] using hp⟩
      obtain ⟨w, hw⟩ := this
      rcases mem_setKey k v tl (k', w) hw with h2 | h2
      · exact hk (congrArg Prod.fst h2)
      · exact h.1 (List.mem_map.2 ⟨(k', w), h2, rfl⟩)

theorem lookupKey_isSome_of_mem {α : Type} (k : String) (v : α) (l : List (String × α))
    (h : (k, v) ∈ l) : (lookupKey k l).isSome := by
  induction l with
  | nil => simp at h
  | cons hd tl ih =>
    obtain ⟨k', v'⟩ := hd
    by_cases hk : k' = k
    · simp [lookupKey, hk]
    · simp only [List.mem_cons] at h
      rcases h with h | h
      · exact absurd (congrArg Prod.fst h).symm hk
      · simpa [lookupKey, hk] using ih h

theorem lookupKey_none_removeKey {α : Type} (k j : String) (l : List (String × α))
    (h : lookupKey j l = none) : lookupKey j (removeKey k l) = none := by
  induction l with
  | nil => simp [removeKey]
  | cons hd tl ih =>
    obtain ⟨k', v'⟩ := hd
    by_cases hkj : k' = j
    · subst hkj
      simp [lookupKey] at h
    · have htl : lookupKey j tl = none := by simpa [lookupKey, hkj] using h
      by_cases hk : k' = k
      · simpa [removeKey, hk] using htl
      · simpa [removeKey, hk, lookupKey, hkj] using ih htl

/-- One iteration of the first loop of `apply_overrides`: key an entry by its
`repo` field when that is a non-empty string, else skip it. -/
def entryKeyStep (acc : List (String × Val)) (entry : List (String × Val)) :
    List (String × Val) :=
  match lookupKey "repo" entry with
  | some (Val.str r) => if r = "" then acc else setKey r (Val.obj entry) acc
  | _ => acc

/-- One iteration of the third loop of `apply_overrides`: deep-merge an
override onto the existing (or a newly created empty) entry for its repo. -/
def overrideStep (acc : List (String × Val)) (ov : List (String × Val)) :
    List (String × Val) :=
  match lookupKey "repo" ov with
  | some (Val.str r) =>
    if r = "" then acc
    else
      match lookupKey r acc with
      | some (Val.obj base) => setKey r (Val.obj (deepMerge base ov)) acc
      | _ => setKey r (Val.obj (deepMerge [] ov)) acc
  | _ => acc

/-- Model of `merge.apply_overrides(entries, overrides, excluded)`.  Entries
are Python dicts; the exclusion set is modelled as the list it is iterated
in (set iteration order is irrelevant because removal commutes). -/
def apply_overrides (entries : List (List (String × Val)))
    (overrides : List (List (String × Val))) (excluded : List String) :
    List (List (String × Val)) :=
  let by_repo := entries.foldl entryKeyStep []
  let by_repo := excluded.foldl (fun acc r => removeKey r acc) by_repo
  let by_repo := overrides.foldl overrideStep by_repo
  by_repo.filterMap (fun kv => match kv.2 with | Val.obj e => some e | _ => none)

theorem nodupKeys_removeKey {α : Type} (k : String) (l : List (String × α))
    (h : (l.map Prod.fst).Nodup) : ((removeKey k l).map Prod.fst).Nodup := by
  induction l with
  | nil => simp [removeKey]
  | cons hd tl ih =>
    obtain ⟨k', v'⟩ := hd
    simp only [List.map_cons, List.nodup_cons] at h
    by_cases hk : k' = k
    · simpa [removeKey, hk] using h.2
    · simp only [removeKey, if_neg hk, List.map_cons, List.nodup_cons]
      refine ⟨fun hm => ?_, ih h.2⟩
      obtain ⟨p, hp, he⟩ := List.mem_map.1 hm
      exact h.1 (List.mem_map.2 ⟨p, mem_removeKey k tl p hp, he⟩)

/-- Internal invariant of `apply_overrides`: every value in the keyed map is
a dict whose `repo` field is exactly its key. -/
def RepoKeyed (l : List (String × Val)) : Prop :=
  ∀ p ∈ l, ∃ e, p.2 = Val.obj e ∧ lookupKey "repo" e = some (Val.str p.1)

theorem isObjPair_str (s : String) (r : Option Val) :
    isObjPair (Val.str s) r = false := by
  cases r with
  | none => rfl
  | some w => cases w <;> rfl

theorem repoKeyed_entryFold (entries : List (List (String × Val)))
    (acc : List (String × Val)) (hacc : RepoKeyed acc) :
    RepoKeyed (entries.foldl entryKeyStep acc) := by
  induction entries generalizing acc with
  | nil => simpa using hacc
  | cons e rest ih =>
    rw [List.foldl_cons]
    refine ih _ ?_
    intro p hp
    unfold entryKeyStep at hp
    split at hp
    · rename_i r hr
      by_cases hre : r = ""
      · exact hacc p (by simpa [hre] using hp)
      · rw [if_neg hre] at hp
        rcases mem_setKey _ _ _ _ hp with h2 | h2
        · exact ⟨e, by simp [h2], by simpa [h2] using hr⟩
        · exact hacc p h2
    · exact hacc p hp

theorem nodupKeys_entryFold (entries : List (List (String × Val)))
    (acc : List (String × Val)) (hacc : (acc.map Prod.fst).Nodup) :
    (((entries.foldl entryKeyStep acc)).map Prod.fst).Nodup := by
  induction entries generalizing acc with
  | nil => simpa using hacc
  | cons e rest ih =>
    rw [List.foldl_cons]
    refine ih _ ?_
    unfold entryKeyStep
    split
    · rename_i r hr
      by_cases hre : r = ""
      · simpa [hre] using hacc
      · rw [if_neg hre]
        exact nodupKeys_setKey _ _ _ hacc
    · exact hacc

theorem repoKeyed_removeFold (excluded : List String)
    (acc : List (String × Val)) (hacc : RepoKeyed acc) :
    RepoKeyed (excluded.foldl (fun acc r => removeKey r acc) acc) := by
  induction excluded generalizing acc with
  | nil => simpa using hacc
  | cons x rest ih =>
    rw [List.foldl_cons]
    refine ih _ ?_
    intro p hp
    exact hacc p (mem_removeKey x acc p hp)

theorem nodupKeys_removeFold (excluded : List String)
    (acc : List (String × Val)) (hacc : (acc.map Prod.fst).Nodup) :
    (((excluded.foldl (fun acc r => removeKey r acc) acc)).map Prod.fst).Nodup := by
  induction excluded generalizing acc with
  | nil => simpa using hacc
  | cons x rest ih =>
    rw [List.foldl_cons]
    refine ih _ ?_
    exact nodupKeys_removeKey x acc hacc

theorem lookup_none_removeFold (excluded : List String)
    (acc : List (String × Val)) (j : String) (h : lookupKey j acc = none) :
    lookupKey j (excluded.foldl (fun acc r => removeKey r acc) acc) = none := by
  induction excluded generalizing acc with
  | nil => simpa using h
  | cons x rest ih =>
    rw [List.foldl_cons]
    refine ih _ ?_
    exact lookupKey_none_removeKey x j acc h

theorem lookup_excluded_removeFold (excluded : List String)
    (acc : List (String × Val)) (r : String) (hr : r ∈ excluded)
    (hacc : (acc.map Prod.fst).Nodup) :
    lookupKey r (excluded.foldl (fun acc r => removeKey r acc) acc) = none := by
  induction excluded generalizing acc with
  | nil => simp at hr
  | cons x rest ih =>
    rw [List.foldl_cons]
    by_cases hx : r = x
    · subst hx
      exact lookup_none_removeFold rest _ r (lookupKey_removeKey_self r acc hacc)
    · rcases List.mem_cons.1 hr with h1 | h1
      · exact absurd h1 hx
      · exact ih _ h1 (nodupKeys_removeKey x acc hacc)

theorem repoKeyed_overrideFold (overrides : List (List (String × Val)))
    (acc : List (String × Val)) (hacc : RepoKeyed acc)
    (hov : ∀ ov ∈ overrides, (ov.map Prod.fst).Nodup) :
    RepoKeyed (overrides.foldl overrideStep acc) := by
  induction overrides generalizing acc with
  | nil => simpa using hacc
  | cons ov rest ih =>
    rw [List.foldl_cons]
    refine ih _ ?_ (fun o ho => hov o (List.mem_cons_of_mem _ ho))
    intro p hp
    unfold overrideStep at hp
    split at hp
    · rename_i r hr
      by_cases hre : r = ""
      · exact hacc p (by simpa [hre] using hp)
      · rw [if_neg hre] at hp
        have hovnd : (ov.map Prod.fst).Nodup := hov ov (List.mem_cons_self _ _)
        have hfield : ∀ base, lookupKey "repo" (deepMerge base ov) = some (Val.str r) := by
          intro base
          rw [deepMerge_lookup ov base hovnd "repo", hr,
            mergedLookup_of_not_objPair _ _ (isObjPair_str r _)]
        split at hp
        · rename_i b hb
          rcases mem_setKey _ _ _ _ hp with h2 | h2
          · subst h2
            exact ⟨deepMerge b ov, rfl, hfield b⟩
          · exact hacc p h2
        · rcases mem_setKey _ _ _ _ hp with h2 | h2
          · subst h2
            exact ⟨deepMerge [] ov, rfl, hfield []⟩
          · exact hacc p h2
    · exact hacc p hp

theorem lookup_none_overrideFold (overrides : List (List (String × Val)))
    (acc : List (String × Val)) (r : String) (h : lookupKey r acc = none)
    (hnone : ∀ ov ∈ overrides, lookupKey "repo" ov ≠ some (Val.str r)) :
    lookupKey r (overrides.foldl overrideStep acc) = none := by
  induction overrides generalizing acc with
  | nil => simpa using h
  | cons ov rest ih =>
    rw [List.foldl_cons]
    refine ih _ ?_ (fun o ho => hnone o (List.mem_cons_of_mem _ ho))
    unfold overrideStep
    split
    · rename_i r' hr'
      by_cases hre : r' = ""
      · simpa [hre] using h
      · rw [if_neg hre]
        have hrr : r ≠ r' := by
          intro hrr
          exact hnone ov (List.mem_cons_self _ _) (by rw [hr', hrr])
        split
        · rw [lookupKey_setKey_ne _ _ _ _ hrr, h]
        · rw [lookupKey_setKey_ne _ _ _ _ hrr, h]
    · exact h

/-- C6: `_deep_merge` satisfies the deep-merge law.  For every base and
override dict (dicts have no duplicate keys): a key bound to a dict in both
is merged recursively with override precedence; a key whose override value is
not a dict merging onto a dict (in particular any sequence) is replaced
wholly by the override value.  In particular merging `{a:{b:9}}` onto
`{a:{b:1,c:2}}` yields `{a:{b:9,c:2}}`, and a sequence-valued override
replaces the base sequence rather than concatenating. -/
theorem claim_C6_deep_merge_law :
    (∀ (base ov : List (String × Val)) (k : String) (o b : List (String × Val)),
      (ov.map Prod.fst).Nodup →
      lookupKey k ov = some (Val.obj o) → lookupKey k base = some (Val.obj b) →
      lookupKey k (deepMerge base ov) = some (Val.obj (deepMerge b o)))
    ∧ (∀ (base ov : List (String × Val)) (k : String) (v : Val),
      (ov.map Prod.fst).Nodup →
      lookupKey k ov = some v → isObjPair v (lookupKey k base) = false →
      lookupKey k (deepMerge base ov) = some v)
    ∧ deepMerge [("a", Val.obj [("b", Val.int 1), ("c", Val.int 2)])]
        [("a", Val.obj [("b", Val.int 9)])]
        = [("a", Val.obj [("b", Val.int 9), ("c", Val.int 2)])]
    ∧ deepMerge [("xs", Val.arr [Val.int 1, Val.int 2])] [("xs", Val.arr [Val.int 3])]
        = [("xs", Val.arr [Val.int 3])] := by
  refine ⟨?_, ?_, ?_, ?_⟩
  · intro base ov k o b hnd ho hb
    rw [deepMerge_lookup ov base hnd k, ho, hb]
    rfl
  · intro base ov k v hnd ho hop
    rw [deepMerge_lookup ov base hnd k, ho, mergedLookup_of_not_objPair v _ hop]
  · simp [deepMerge, lookupKey, setKey]
  · simp [deepMerge, lookupKey, setKey]

/-- Witness for C6: the recursive-merge clause and the replacement clause
applied at concrete inputs. -/
theorem claim_C6_witness :
    lookupKey "a" (deepMerge [("a", Val.obj [("x", Val.int 1)])]
        [("a", Val.obj [("y", Val.int 2)])])
      = some (Val.obj (deepMerge [("x", Val.int 1)] [("y", Val.int 2)]))
    ∧ lookupKey "t" (deepMerge [("t", Val.arr [Val.int 7])] [("t", Val.str "z")])
      = some (Val.str "z") :=
  ⟨claim_C6_deep_merge_law.1 _ _ "a" _ _ (by simp) rfl rfl,
   claim_C6_deep_merge_law.2.1 _ _ "t" _ (by simp) rfl rfl⟩

/-- C2 counterexample: the claim asserts an excluded identifier is absent
from the output of `apply_overrides` regardless of override objects naming
the same identifier.  In the code exclusions are applied before overrides,
so an override whose `repo` equals an excluded identifier re-creates the
entry: with no entries, override `{repo: "acme/x"}` and exclusion
`{"acme/x"}`, the output contains an entry whose `repo` is `acme/x`. -/
theorem claim_C2_counterexample :
    ¬ (∀ e ∈ apply_overrides [] [[("repo", Val.str "acme/x")]] ["acme/x"],
        lookupKey "repo" e ≠ some (Val.str "acme/x")) := by
  intro hall
  have hres : apply_overrides [] [[("repo", Val.str "acme/x")]] ["acme/x"]
      = [[("repo", Val.str "acme/x")]] := by
    simp [apply_overrides, overrideStep, deepMerge, lookupKey, setKey, removeKey]
  exact hall [("repo", Val.str "acme/x")]
    (by rw [hres]; exact List.mem_singleton.mpr rfl) rfl

/-- C2 (amended): for every identifier in the exclusion set, the entry for
that identifier is absent from the final merged output of `apply_overrides`
— regardless of whether it was rediscovered in the same run (i.e. appears in
`entries`) — provided no override object names that identifier; an override
naming it re-creates the entry after the exclusion pass.  Override dicts
have no duplicate keys (they are Python dicts). -/
theorem claim_C2_exclusion_precedence (entries overrides : List (List (String × Val)))
    (excluded : List String) (r : String) (hr : r ∈ excluded)
    (hovnd : ∀ ov ∈ overrides, (ov.map Prod.fst).Nodup)
    (hnone : ∀ ov ∈ overrides, lookupKey "repo" ov ≠ some (Val.str r)) :
    ∀ e ∈ apply_overrides entries overrides excluded,
      lookupKey "repo" e ≠ some (Val.str r) := by
  intro e he hfield
  unfold apply_overrides at he
  set m1 := entries.foldl entryKeyStep [] with hm1
  set m2 := excluded.foldl (fun acc r => removeKey r acc) m1 with hm2
  set m3 := overrides.foldl overrideStep m2 with hm3
  have hnd1 : (m1.map Prod.fst).Nodup := nodupKeys_entryFold entries [] (by simp)
  have hkeyed1 : RepoKeyed m1 := repoKeyed_entryFold entries [] (by simp [RepoKeyed])
  have hkeyed2 : RepoKeyed m2 := repoKeyed_removeFold excluded m1 hkeyed1
  have hkeyed3 : RepoKeyed m3 := repoKeyed_overrideFold overrides m2 hkeyed2 hovnd
  have hnone2 : lookupKey r m2 = none := lookup_excluded_removeFold excluded m1 r hr hnd1
  have hnone3 : lookupKey r m3 = none := lookup_none_overrideFold overrides m2 r hnone2 hnone
  obtain ⟨⟨k, v⟩, hkv, hv⟩ := List.mem_filterMap.1 he
  have hobj : v = Val.obj e := by
    cases v <;> simp_all
  subst hobj
  obtain ⟨e', he', hrepo⟩ := hkeyed3 (k, Val.obj e) hkv
  have hee : e' = e := by
    have : Val.obj e = Val.obj e' := he'
    cases this
    rfl
  rw [hee] at hrepo
  rw [hfield] at hrepo
  have hkr : k = r := by
    simpa using hrepo.symm
  subst hkr
  have := lookupKey_isSome_of_mem k (Val.obj e) m3 hkv
  rw [hnone3] at this
  simp at this

/-- Witness for C2 (amended): with entries for `acme/x` and `other/y`, no
overrides and exclusion `{"acme/x"}`, the surviving output entry is the one
for `other/y`, and its `repo` field is not the excluded identifier. -/
theorem claim_C2_exclusion_precedence_witness :
    [("repo", Val.str "other/y")]
        ∈ apply_overrides [[("repo", Val.str "acme/x")],
            [("repo", Val.str "other/y")]] [] ["acme/x"]
      ∧ lookupKey "repo" [("repo", Val.str "other/y")]
          ≠ some (Val.str "acme/x") :=
  ⟨by
    rw [show apply_overrides [[("repo", Val.str "acme/x")],
        [("repo", Val.str "other/y")]] [] ["acme/x"]
      = [[("repo", Val.str "other/y")]] from rfl]
    exact List.mem_singleton.mpr rfl,
   claim_C2_exclusion_precedence [[("repo", Val.str "acme/x")],
       [("repo", Val.str "other/y")]] [] ["acme/x"] "acme/x"
     (by simp) (by simp) (by simp)
     [("repo", Val.str "other/y")]
     (by
       rw [show apply_overrides [[("repo", Val.str "acme/x")],
           [("repo", Val.str "other/y")]] [] ["acme/x"]
         = [[("repo", Val.str "other/y")]] from rfl]
       exact List.mem_singleton.mpr rfl)⟩

/-! ## Parser (`src/indexer/parser.py`)

String primitives are modelled at the character-list level so that they
compute in the kernel; the repository's inputs are ASCII, where
`Char.toLower`, `Char.isWhitespace` and code-point comparison coincide with
Python `str.lower`, `str.strip` and `str <`. -/

/-- Model of Python `s.lower()`. -/
def pyLower (s : String) : String := String.mk (s.toList.map Char.toLower)

/-- Model of Python `s.strip()` (strip whitespace from both ends). -/
def pyStrip (s : String) : String :=
  String.mk (((s.toList.dropWhile Char.isWhitespace).reverse.dropWhile
    Char.isWhitespace).reverse)

/-- Model of Python `s.strip(chars)` for an explicit character set. -/
def pyStripChars (cs : List Char) (s : String) : String :=
  String.mk (((s.toList.dropWhile (cs.contains ·)).reverse.dropWhile
    (cs.contains ·)).reverse)

/-- Model of Python `s.endswith(suffix)`. -/
def strEndsWith (s suffix : String) : Bool := suffix.toList.isSuffixOf s.toList

/-- Drop the last `suffix.length` characters (`candidate[:-len(suffix)]`). -/
def dropSuffix (s suffix : String) : String :=
  String.mk (s.toList.take (s.toList.length - suffix.toList.length))

/-- Model of Python `s.replace(a, b)` for single-character patterns. -/
def replaceChar (a b : Char) (s : String) : String :=
  String.mk (s.toList.map (fun c => if c = a then b else c))

/-- Model of Python string `<` (lexicographic on code points). -/
def charsLt : List Char → List Char → Bool
  | [], [] => false
  | [], _ :: _ => true
  | _ :: _, [] => false
  | a :: as, b :: bs =>
    if a.val < b.val then true else if b.val < a.val then false else charsLt as bs

def pyStrLt (a b : String) : Bool := charsLt a.toList b.toList

def pyStrLe (a b : String) : Bool := !(pyStrLt b a)

/-- Insertion step of the sort modelling Python `sorted` on strings. -/
def insertStr (x : String) : List String → List String
  | [] => [x]
  | y :: ys => if pyStrLe x y then x :: y :: ys else y :: insertStr x ys

/-- Model of Python `sorted` on a list of strings (ascending, stable). -/
def sortStrings : List String → List String
  | [] => []
  | x :: xs => insertStr x (sortStrings xs)

/-- Model of `parser.sanitize_repo_name`: lowercase, strip, peel the known
suffixes once each in order, then strip `-`/`_` from both ends. -/
def sanitize_repo_name (repoName : String) : String :=
  let candidate := pyStrip (pyLower repoName)
  let suffixes := [".nvim", ".vim", ".lua", "-nvim", "_nvim", "-vim", "_vim",
    "-colorscheme"]
  let candidate := suffixes.foldl (fun cand suffix =>
    if strEndsWith cand suffix && decide (cand.toList.length > suffix.toList.length)
    then dropSuffix cand suffix else cand) candidate
  pyStripChars ['-', '_'] candidate

/-- Model of `parser.normalize_theme_name`: sanitize the repo-name part of
`owner/name`; on a generic result fall back to the sanitized owner, then to
`"theme"`. -/
def normalize_theme_name (fullRepo : String) : String :=
  let owner := String.mk (fullRepo.toList.takeWhile (· ≠ '/'))
  let repoName :=
    if fullRepo.toList.contains '/'
    then String.mk ((fullRepo.toList.dropWhile (· ≠ '/')).drop 1)
    else ""
  let cleanedRepo := sanitize_repo_name repoName
  let junk := ["", "nvim", "vim", "neovim", "theme", "colorscheme"]
  if junk.contains cleanedRepo && sanitize_repo_name owner ≠ "" then
    sanitize_repo_name owner
  else if cleanedRepo ≠ "" then cleanedRepo
  else if sanitize_repo_name owner ≠ "" then sanitize_repo_name owner
  else "theme"

/-- Model of matching `COLORS_FILE = ^colors/([^/]+)\.(vim|lua)$` against a
path, returning capture group 1: the path splits as `colors/` ++ stem ++
`.vim`/`.lua` with a non-empty, slash-free stem. -/
def colorsMatch (path : String) : Option String :=
  let cs := path.toList
  if cs.take 7 = "colors/".toList then
    let restl := cs.drop 7
    let n := restl.length
    if n ≥ 5 && (restl.drop (n - 4) = ".vim".toList || restl.drop (n - 4) = ".lua".toList)
        && !(restl.take (n - 4)).contains '/' then
      some (String.mk (restl.take (n - 4)))
    else none
  else none

/-- Model of `parser.extract_colorschemes`: collect stripped capture groups
of blob paths matching the colors-file pattern, deduplicate (the Python set)
and sort. -/
def extract_colorschemes (treeItems : List Val) : List String :=
  let names := treeItems.filterMap (fun item =>
    match item with
    | Val.obj fields =>
      match lookupKey "type" fields with
      | some (Val.str "blob") =>
        match lookupKey "path" fields with
        | some (Val.str p) =>
          match colorsMatch p with
          | some stem =>
            let c := pyStrip stem
            if c = "" then none else some c
          | none => none
        | _ => none
      | _ => none
    | _ => none)
  sortStrings names.dedup

/-- Model of `parser.pick_base_colorscheme`. -/
def pick_base_colorscheme (themeName : String) (colors : List String) : String :=
  match colors with
  | [] => themeName
  | c0 :: rest =>
    let preferred := [themeName, replaceChar '-' '_' themeName,
      replaceChar '_' '-' themeName]
    match (c0 :: rest).find? (fun c => preferred.contains c) with
    | some c => c
    | none =>
      match (c0 :: rest).find? (fun c =>
          !(c.toList.contains '-') && !(c.toList.contains '_')) with
      | some c => c
      | none => c0

/-- Model of `parser.build_entry`; raising `ValueError` is modelled as
`Except.error` with the exception's message. -/
def build_entry (repoData : List (String × Val)) (colors : List String) :
    Except String Val :=
  match lookupKey "full_name" repoData with
  | some (Val.str fullName) =>
    if fullName.toList.contains '/' then
      let themeName := normalize_theme_name fullName
      let baseColorscheme := pick_base_colorscheme themeName colors
      let variants := (colors.filter (fun v => v ≠ baseColorscheme)).map
        (fun v => Val.obj [("name", Val.str v), ("colorscheme", Val.str v)])
      let topics : List Val :=
        match lookupKey "topics" repoData with
        | some (Val.arr ts) => ts.filterMap (fun t =>
            match t with
            | Val.str s => if s = "" then none else some (Val.str s)
            | _ => none)
        | _ => []
      let entry := [("name", Val.str themeName), ("repo", Val.str fullName),
        ("colorscheme", Val.str baseColorscheme),
        ("description", pyOr (lookupKey "description" repoData) (Val.str "")),
        ("stars", pyOr (lookupKey "stargazers_count" repoData) (Val.int 0)),
        ("topics", Val.arr topics),
        ("updated_at", pyOr (lookupKey "updated_at" repoData) (Val.str "")),
        ("archived", Val.bool (pyTruthy (lookupKey "archived" repoData))),
        ("disabled", Val.bool (pyTruthy (lookupKey "disabled" repoData)))]
      Except.ok (Val.obj
        (if variants.isEmpty then entry else entry ++ [("variants", Val.arr variants)]))
    else Except.error "invalid repository payload"
  | _ => Except.error "invalid repository payload"

theorem charsLt_irrefl (l : List Char) : charsLt l l = false := by
  induction l with
  | nil => rfl
  | cons a as ih => simp [charsLt, ih]

theorem pyStrLe_refl (s : String) : pyStrLe s s = true := by
  simp [pyStrLe, pyStrLt, charsLt_irrefl]

/-- C7: for every derived name and sorted variant list,
`pick_base_colorscheme` picks the first variant among the derived name and
its hyphen/underscore-swapped forms; else the first variant containing
neither separator; else the head of the list, which for a sorted list is the
lexicographic minimum.  Scenario: repo `acme/mytheme.nvim` with tree entries
`colors/gruvbox.vim` and `colors/nord.lua` derives name `mytheme`, sorted
variants `[gruvbox, nord]`, base `gruvbox`, and `nord` becomes a secondary
variant of the built entry. -/
theorem claim_C7_base_variant_selection :
    (∀ (theme c : String) (colors : List String),
      colors.find? (fun x => [theme, replaceChar '-' '_' theme,
        replaceChar '_' '-' theme].contains x) = some c →
      pick_base_colorscheme theme colors = c)
    ∧ (∀ (theme c : String) (colors : List String),
      colors.find? (fun x => [theme, replaceChar '-' '_' theme,
        replaceChar '_' '-' theme].contains x) = none →
      colors.find? (fun x =>
        !(x.toList.contains '-') && !(x.toList.contains '_')) = some c →
      pick_base_colorscheme theme colors = c)
    ∧ (∀ (theme c0 : String) (rest : List String),
      List.Pairwise (fun a b => pyStrLe a b = true) (c0 :: rest) →
      (c0 :: rest).find? (fun x => [theme, replaceChar '-' '_' theme,
        replaceChar '_' '-' theme].contains x) = none →
      (c0 :: rest).find? (fun x =>
        !(x.toList.contains '-') && !(x.toList.contains '_')) = none →
      pick_base_colorscheme theme (c0 :: rest) = c0
        ∧ ∀ c ∈ c0 :: rest, pyStrLe c0 c = true)
    ∧ normalize_theme_name "acme/mytheme.nvim" = "mytheme"
    ∧ extract_colorschemes
        [Val.obj [("type", Val.str "blob"), ("path", Val.str "colors/gruvbox.vim")],
         Val.obj [("type", Val.str "blob"), ("path", Val.str "colors/nord.lua")]]
        = ["gruvbox", "nord"]
    ∧ pick_base_colorscheme "mytheme" ["gruvbox", "nord"] = "gruvbox"
    ∧ build_entry [("full_name", Val.str "acme/mytheme.nvim"),
          ("stargazers_count", Val.int 10)] ["gruvbox", "nord"]
        = Except.ok (Val.obj
          [("name", Val.str "mytheme"), ("repo", Val.str "acme/mytheme.nvim"),
           ("colorscheme", Val.str "gruvbox"), ("description", Val.str ""),
           ("stars", Val.int 10), ("topics", Val.arr []),
           ("updated_at", Val.str ""), ("archived", Val.bool false),
           ("disabled", Val.bool false),
           ("variants", Val.arr [Val.obj
             [("name", Val.str "nord"), ("colorscheme", Val.str "nord")]])]) := by
  refine ⟨?_, ?_, ?_, by decide, by decide, by decide, rfl⟩
  · intro theme c colors h
    cases colors with
    | nil => simp at h
    | cons c0 rest =>
      simp only [pick_base_colorscheme]
      rw [h]
  · intro theme c colors h1 h2
    cases colors with
    | nil => simp at h2
    | cons c0 rest =>
      simp only [pick_base_colorscheme]
      rw [h1, h2]
  · intro theme c0 rest hsorted h1 h2
    refine ⟨by simp only [pick_base_colorscheme]; rw [h1, h2], ?_⟩
    intro c hc
    rcases List.mem_cons.1 hc with h | h
    · subst h
      exact pyStrLe_refl c
    · exact (List.pairwise_cons.1 hsorted).1 c h

/-- Witness for C7: the preferred-name clause at a concrete input, and the
lexicographic-minimum clause on a concrete sorted separator-bearing list. -/
theorem claim_C7_witness :
    pick_base_colorscheme "my-theme" ["my-theme", "zzz"] = "my-theme"
    ∧ (pick_base_colorscheme "mytheme" ["a-1", "b-2"] = "a-1"
       ∧ ∀ c ∈ ["a-1", "b-2"], pyStrLe "a-1" c = true) :=
  ⟨claim_C7_base_variant_selection.1 "my-theme" "my-theme" ["my-theme", "zzz"]
      (by decide),
   claim_C7_base_variant_selection.2.2.1 "mytheme" "a-1" ["b-2"]
      (by decide) (by decide) (by decide)⟩

/-! ## State store (`src/indexer/state.py`)

A cache row (`repo_cache` table) keyed by `repo`.  `should_refresh` and the
runner read rows through `read_repo`, which decodes `payload_json`; the
decoder (`json.loads`) is passed as a parameter `dec`, where `dec s = none`
models a raising `json.loads`.  `time.time()` is passed as `now`. -/

structure CacheRow where
  repo : String
  updated_at : String
  scanned_at : Int
  payload_json : String
  parse_error : Option String

/-- View returned by `read_repo` (payload decoded when it is a dict). -/
structure RepoView where
  repo : String
  updated_at : String
  scanned_at : Int
  payload : Option Val
  parse_error : Option String

/-- Truthiness of the `parse_error` column (`None` and `""` are falsy). -/
def pyTruthyStrOpt : Option String → Bool
  | none => false
  | some s => s != ""

/-- The payload as `read_repo` exposes it: the decoded value when `dec`
succeeds and yields a dict, otherwise `None`. -/
def decodedObj (dec : String → Option Val) (s : String) : Option Val :=
  match dec s with
  | some (Val.obj fs) => some (Val.obj fs)
  | _ => none

/-- Model of `StateStore.read_repo` over the rows of the table. -/
def read_repo (dec : String → Option Val) (rows : List CacheRow) (repo : String) :
    Option RepoView :=
  match rows.find? (fun row => row.repo == repo) with
  | none => none
  | some row =>
    some ⟨row.repo, row.updated_at, row.scanned_at,
      decodedObj dec row.payload_json, row.parse_error⟩

/-- Model of `StateStore.list_payloads`: rows whose `parse_error` is NULL,
whose payload decodes, and decodes to a dict. -/
def list_payloads (dec : String → Option Val) (rows : List CacheRow) : List Val :=
  (rows.filter (fun row => row.parse_error.isNone)).filterMap (fun row =>
    match dec row.payload_json with
    | some (Val.obj fs) => some (Val.obj fs)
    | _ => none)

/-- Model of `StateStore.should_refresh`, taking the `read_repo` view of the
stored record (or `none`). -/
def should_refresh (existing : Option RepoView) (discovered_updated_at : String)
    (stale_after_days : Int) (now : Int) : Bool :=
  match existing with
  | none => true
  | some r =>
    if pyTruthyStrOpt r.parse_error then true
    else if discovered_updated_at != "" && r.updated_at != discovered_updated_at then true
    else decide (now - r.scanned_at ≥ max 1 stale_after_days * (24 * 60 * 60))

/-- C3 counterexample: the claim's refresh condition uses
`staleAfterDays × 86400`, the code uses `max(1, staleAfterDays) × 86400`.
At `staleAfterDays = 0` with an error-free, marker-matching record scanned
at the current instant the claim's disjunction holds (elapsed 0 ≥ 0) but
`should_refresh` returns false. -/
theorem claim_C3_counterexample :
    ¬ (∀ (existing : Option RepoView) (marker : String) (d now : Int),
      should_refresh existing marker d now = true ↔
        (existing = none ∨ ∃ r, existing = some r ∧
          (pyTruthyStrOpt r.parse_error = true
            ∨ (marker ≠ "" ∧ r.updated_at ≠ marker)
            ∨ now - r.scanned_at ≥ d * 86400))) := by
  intro hall
  have h := (hall (some ⟨"acme/x", "m", 100, none, none⟩) "m" 0 100).2
    (Or.inr ⟨_, rfl, Or.inr (Or.inr (by norm_num))⟩)
  simp [should_refresh, pyTruthyStrOpt] at h

/-- C3 (amended): `should_refresh` returns true iff no record exists, or the
stored error is non-empty, or a non-empty discovered marker differs from the
stored one, or the elapsed time since the last scan is at least
`max(1, staleAfterDays) × 86400` seconds (the code clamps the window to at
least one day; for the configured range `staleAfterDays ≥ 1` this is the
claimed `staleAfterDays × 86400`).  In particular it is true for any
identifier with no record, and true whenever the stored error is non-empty,
regardless of the other arguments. -/
theorem claim_C3_refresh_policy :
    (∀ (existing : Option RepoView) (marker : String) (d now : Int),
      should_refresh existing marker d now = true ↔
        (existing = none ∨ ∃ r, existing = some r ∧
          (pyTruthyStrOpt r.parse_error = true
            ∨ (marker ≠ "" ∧ r.updated_at ≠ marker)
            ∨ now - r.scanned_at ≥ max 1 d * 86400)))
    ∧ (∀ (marker : String) (d now : Int), should_refresh none marker d now = true)
    ∧ (∀ (r : RepoView) (marker : String) (d now : Int),
      pyTruthyStrOpt r.parse_error = true →
      should_refresh (some r) marker d now = true) := by
  refine ⟨?_, fun _ _ _ => rfl, fun r marker d now he => by simp [should_refresh, he]⟩
  intro existing marker d now
  cases existing with
  | none => simp [should_refresh]
  | some r =>
    by_cases he : pyTruthyStrOpt r.parse_error = true
    · simp [should_refresh, he]
    · by_cases hm : marker ≠ "" ∧ r.updated_at ≠ marker
      · simp [should_refresh, he, hm.1, hm.2]
      · have hmb : (marker != "" && r.updated_at != marker) = false := by
          rcases not_and_or.1 hm with h | h
          · simp [not_ne_iff.1 h]
          · simp [not_ne_iff.1 h]
        constructor
        · intro h
          refine Or.inr ⟨r, rfl, Or.inr (Or.inr ?_)⟩
          rw [should_refresh, if_neg (by simp [he]), hmb] at h
          simpa using h
        · intro h
          rcases h with h | ⟨r', hr', h⟩
          · exact absurd h (by simp)
          · obtain rfl : r' = r := by injection hr' with h2; exact h2.symm
            rcases h with h | h | h
            · exact absurd h he
            · exact absurd h hm
            · rw [should_refresh, if_neg (by simp [he]), hmb]
              simpa using h

/-- Witness for C3 (amended): a record with a non-empty error forces refresh,
and the iff applied at a concrete stale record. -/
theorem claim_C3_refresh_policy_witness :
    should_refresh (some ⟨"acme/x", "m", 0, none, some "boom"⟩) "" 1 10 = true
    ∧ (should_refresh (some ⟨"acme/x", "m", 0, none, none⟩) "" 1 100000 = true ↔
        (some (⟨"acme/x", "m", 0, none, none⟩ : RepoView) = none
          ∨ ∃ r, some (⟨"acme/x", "m", 0, none, none⟩ : RepoView) = some r ∧
            (pyTruthyStrOpt r.parse_error = true
              ∨ (("" : String) ≠ "" ∧ r.updated_at ≠ "")
              ∨ (100000 : Int) - r.scanned_at ≥ max 1 1 * 86400))) :=
  ⟨claim_C3_refresh_policy.2.2 _ "" 1 10 rfl,
   claim_C3_refresh_policy.1 (some ⟨"acme/x", "m", 0, none, none⟩) "" 1 100000⟩

/-- C10: `StateStore` never fails on a corrupt stored payload.  If the row
for a repo exists but its `payload_json` does not decode to a JSON object
(`dec` yields nothing — a raising `json.loads` — or a non-dict),
`read_repo` still returns the record, with an absent payload; every value
`list_payloads` returns is the decoded dict payload of some row whose
`parse_error` is NULL; and a row whose payload does not decode to a dict
contributes nothing to `list_payloads`. -/
theorem claim_C10_corrupt_payload_tolerated :
    (∀ (dec : String → Option Val) (rows : List CacheRow) (repo : String)
      (row : CacheRow),
      rows.find? (fun r => r.repo == repo) = some row →
      decodedObj dec row.payload_json = none →
      read_repo dec rows repo
        = some ⟨row.repo, row.updated_at, row.scanned_at, none, row.parse_error⟩)
    ∧ (∀ (dec : String → Option Val) (rows : List CacheRow) (v : Val),
      v ∈ list_payloads dec rows →
      ∃ row ∈ rows, row.parse_error = none ∧ dec row.payload_json = some v
        ∧ ∃ fs, v = Val.obj fs)
    ∧ (∀ (dec : String → Option Val) (rows : List CacheRow) (row : CacheRow),
      decodedObj dec row.payload_json = none →
      list_payloads dec (row :: rows) = list_payloads dec rows) := by
  refine ⟨?_, ?_, ?_⟩
  · intro dec rows repo row hfind hdec
    rw [read_repo, hfind]
    simp only [hdec]
  · intro dec rows v hv
    unfold list_payloads at hv
    obtain ⟨row, hrow, hdec⟩ := List.mem_filterMap.1 hv
    have hmem := List.mem_filter.1 hrow
    cases hd : dec row.payload_json with
    | none => rw [hd] at hdec; simp at hdec
    | some w =>
      rw [hd] at hdec
      cases w <;> simp at hdec
      rename_i fs
      refine ⟨row, hmem.1, Option.isNone_iff_eq_none.1 hmem.2, ?_, ?_⟩
      · rw [hd, hdec]
      · exact ⟨fs, hdec.symm⟩
  · intro dec rows row hdec
    unfold list_payloads
    cases he : row.parse_error with
    | some e => simp [List.filter_cons, he]
    | none =>
      simp only [List.filter_cons, he, Option.isNone_none, if_pos]
      rw [List.filterMap_cons]
      unfold decodedObj at hdec
      cases hd : dec row.payload_json with
      | none => simp
      | some w => cases w <;> simp_all

/-- Witness for C10: a single row whose payload never decodes. -/
theorem claim_C10_witness :
    read_repo (fun _ => none) [⟨"acme/x", "m", 5, "not json", none⟩] "acme/x"
      = some ⟨"acme/x", "m", 5, none, none⟩
    ∧ list_payloads (fun _ => none)
        [⟨"acme/x", "m", 5, "not json", none⟩, ⟨"acme/y", "m", 6, "{}", none⟩]
      = list_payloads (fun _ => none) [⟨"acme/y", "m", 6, "{}", none⟩] :=
  ⟨claim_C10_corrupt_payload_tolerated.1 (fun _ => none)
      [⟨"acme/x", "m", 5, "not json", none⟩] "acme/x"
      ⟨"acme/x", "m", 5, "not json", none⟩ rfl rfl,
   claim_C10_corrupt_payload_tolerated.2.2 (fun _ => none)
      [⟨"acme/y", "m", 6, "{}", none⟩] ⟨"acme/x", "m", 5, "not json", none⟩ rfl⟩

/-! ## Rate-limited client (`src/indexer/github_client.py`)

`_request_json` is modelled over an oracle `resps : Nat → HttpResp` giving
the outcome of the n-th HTTP request actually issued.  A 2xx response with
an unparseable body raises inside the `try` and is caught by the generic
`except`, so it is modelled as `exc`; `ok none` models an empty body (the
method returns `None`).  `time.time()` at the rate-limit computation is the
fixed parameter `now`; the per-client pacing clock (`_sleep_for_rate` /
`_mark_request`) orders requests but does not affect results and is not
modelled.  The trace records the result, the number of requests issued and
the retry/rate-limit sleeps in order (pacing sleeps excluded). -/

inductive HttpResp where
  | ok (body : Option Val)
  | httpError (code : Nat) (remaining : Option String) (reset : Option String)
  | exc (msg : String)

structure ReqTrace where
  result : Except String (Option Val)
  requests : Nat
  sleeps : List Int

/-- Model of Python `int(s)` on header strings: optional surrounding
whitespace, optional sign, at least one digit. -/
def parsePyInt (s : String) : Option Int :=
  let cs := (pyStrip s).toList
  match cs with
  | [] => none
  | '-' :: ds =>
    if !ds.isEmpty && ds.all Char.isDigit
    then some (-(ds.foldl (fun acc c => acc * 10 + ((c.toNat : Int) - 48)) 0))
    else none
  | '+' :: ds =>
    if !ds.isEmpty && ds.all Char.isDigit
    then some (ds.foldl (fun acc c => acc * 10 + ((c.toNat : Int) - 48)) 0)
    else none
  | ds =>
    if ds.all Char.isDigit
    then some (ds.foldl (fun acc c => acc * 10 + ((c.toNat : Int) - 48)) 0)
    else none

/-- The rate-limit guard:
`error.code == 403 and remaining == "0" and reset_at` (a missing or empty
`X-RateLimit-Reset` header is falsy). -/
def isRateLimit403 (code : Nat) (remaining reset : Option String) : Bool :=
  code == 403 && remaining == some "0"
    && (match reset with | some s => s != "" | none => false)

def isRateLimitResp : HttpResp → Bool
  | HttpResp.httpError code remaining reset => isRateLimit403 code remaining reset
  | _ => false

/-- Duration of the rate-limit wait:
`max(1, int(reset_at) - int(time.time()) + 1)`, and 60 seconds when
`int(reset_at)` raises `ValueError`. -/
def rateLimitSleep (reset : Option String) (now : Int) : Int :=
  match reset with
  | some s =>
    match parsePyInt s with
    | some n => max 1 (n - now + 1)
    | none => 60
  | none => 60

/-- The retry loop of `_request_json`.  `rem` is the number of loop
iterations left (`retry_limit - attempt + 1`), `attempt` the 1-based Python
attempt counter (used only for the backoff exponent), `reqIdx` the index of
the next oracle response, `lastError` the `last_error` variable. -/
def requestAux (resps : Nat → HttpResp) (now : Int) (url : String) :
    Nat → Nat → Nat → Option String → ReqTrace
  | 0, _, _, lastError =>
    ⟨Except.error (match lastError with
      | some e => if e = "" then "request failed: " ++ url else e
      | none => "request failed: " ++ url), 0, []⟩
  | rem + 1, attempt, reqIdx, lastError =>
    match resps reqIdx with
    | HttpResp.ok body => ⟨Except.ok body, 1, []⟩
    | HttpResp.httpError code remaining reset =>
      if code = 404 then ⟨Except.ok none, 1, []⟩
      else if isRateLimit403 code remaining reset then
        let t := requestAux resps now url rem (attempt + 1) (reqIdx + 1) lastError
        ⟨t.result, 1 + t.requests, rateLimitSleep reset now :: t.sleeps⟩
      else
        let le := some ("HTTP " ++ toString code ++ " for " ++ url)
        let t := requestAux resps now url rem (attempt + 1) (reqIdx + 1) le
        if rem > 0 then
          ⟨t.result, 1 + t.requests, min 60 ((2 : Int) ^ (attempt - 1)) :: t.sleeps⟩
        else ⟨t.result, 1 + t.requests, t.sleeps⟩
    | HttpResp.exc msg =>
      let t := requestAux resps now url rem (attempt + 1) (reqIdx + 1) (some msg)
      if rem > 0 then
        ⟨t.result, 1 + t.requests, min 60 ((2 : Int) ^ (attempt - 1)) :: t.sleeps⟩
      else ⟨t.result, 1 + t.requests, t.sleeps⟩

/-- Model of `GitHubClient._request_json`. -/
def requestJson (resps : Nat → HttpResp) (retryLimit : Nat) (now : Int)
    (url : String) : ReqTrace :=
  requestAux resps now url retryLimit 1 0 none

theorem isRateLimitResp_true (resp : HttpResp) (h : isRateLimitResp resp = true) :
    ∃ code remaining reset, resp = HttpResp.httpError code remaining reset
      ∧ isRateLimit403 code remaining reset = true := by
  cases resp with
  | httpError code remaining reset => exact ⟨code, remaining, reset, rfl, h⟩
  | ok body => simp [isRateLimitResp] at h
  | exc msg => simp [isRateLimitResp] at h

theorem isRateLimit403_not_404 (code : Nat) (remaining reset : Option String)
    (h : isRateLimit403 code remaining reset = true) : code ≠ 404 := by
  intro hc
  subst hc
  simp [isRateLimit403] at h

/-- Result and request count of the loop do not depend on the attempt
counter (it only shapes backoff durations) nor on the absolute response
index, only on the responses from that index on. -/
theorem requestAux_reindex (resps1 resps2 : Nat → HttpResp) (now : Int)
    (url : String) (rem : Nat) :
    ∀ (a1 a2 i1 i2 : Nat) (le : Option String),
      (∀ j, resps1 (i1 + j) = resps2 (i2 + j)) →
      (requestAux resps1 now url rem a1 i1 le).result
          = (requestAux resps2 now url rem a2 i2 le).result
        ∧ (requestAux resps1 now url rem a1 i1 le).requests
          = (requestAux resps2 now url rem a2 i2 le).requests := by
  induction rem with
  | zero => intro a1 a2 i1 i2 le h; exact ⟨rfl, rfl⟩
  | succ rem ih =>
    intro a1 a2 i1 i2 le h
    have h0 : resps1 i1 = resps2 i2 := by simpa using h 0
    have hs : ∀ j, resps1 (i1 + 1 + j) = resps2 (i2 + 1 + j) := by
      intro j
      have := h (1 + j)
      simpa [Nat.add_assoc] using this
    simp only [requestAux, h0]
    cases resps2 i2 with
    | ok body => exact ⟨rfl, rfl⟩
    | httpError code remaining reset =>
      by_cases hc : code = 404
      · simp [hc]
      · simp only [hc, if_false]
        by_cases hrl : isRateLimit403 code remaining reset = true
        · simp only [hrl, if_true]
          obtain ⟨hr, hq⟩ := ih (a1 + 1) (a2 + 1) (i1 + 1) (i2 + 1) le hs
          exact ⟨hr, by simpa using hq⟩
        · simp only [Bool.not_eq_true] at hrl
          simp only [hrl, if_false]
          obtain ⟨hr, hq⟩ := ih (a1 + 1) (a2 + 1) (i1 + 1) (i2 + 1)
            (some ("HTTP " ++ toString code ++ " for " ++ url)) hs
          by_cases hrem : rem > 0 <;> simp [hrem, hr, hq]
    | exc msg =>
      obtain ⟨hr, hq⟩ := ih (a1 + 1) (a2 + 1) (i1 + 1) (i2 + 1) (some msg) hs
      by_cases hrem : rem > 0 <;> simp [hrem, hr, hq]

/-- C1 counterexample.  The claim entails: whenever the first response is a
rate-limit signal (403, zero remaining, reset present) and at least one
attempt is allowed, the client retries — a second request is issued.  With
`retry_limit = 1` the code instead consumes its only attempt on the
rate-limit wait (`continue` advances the `for` loop) and raises, issuing a
single request. -/
theorem claim_C1_counterexample :
    ¬ (∀ (resps : Nat → HttpResp) (limit : Nat) (now : Int) (url : String),
        1 ≤ limit → isRateLimitResp (resps 0) = true →
        2 ≤ (requestJson resps limit now url).requests) := by
  intro hall
  have h := hall (fun _ => HttpResp.httpError 403 (some "0") (some "100"))
    1 0 "u" (by norm_num) rfl
  have hv : (requestJson (fun _ => HttpResp.httpError 403 (some "0") (some "100"))
      1 0 "u").requests = 1 := rfl
  rw [hv] at h
  omega

/-- C1 (amended): a 403 response with `X-RateLimit-Remaining: 0` and a reset
time makes the client sleep `max(1, reset - now + 1)` seconds (60 when the
reset header does not parse) with no backoff added, and then proceed to the
next attempt — the wait consumes a retry slot exactly like other failures
(though `last_error` is left unchanged).  Consequently a run of
`retry_limit` consecutive rate-limited responses exhausts the budget: the
call issues exactly `retry_limit` requests and raises the generic
`request failed` error. -/
theorem claim_C1_rate_limit_consumes_budget :
    (∀ (resps : Nat → HttpResp) (limit : Nat) (now : Int) (url : String)
      (code : Nat) (remaining reset : Option String),
      1 ≤ limit →
      resps 0 = HttpResp.httpError code remaining reset →
      isRateLimit403 code remaining reset = true →
      (requestJson resps limit now url).result
          = (requestJson (fun i => resps (i + 1)) (limit - 1) now url).result
        ∧ (requestJson resps limit now url).requests
          = 1 + (requestJson (fun i => resps (i + 1)) (limit - 1) now url).requests
        ∧ (requestJson resps limit now url).sleeps.head?
          = some (rateLimitSleep reset now))
    ∧ (∀ (resps : Nat → HttpResp) (limit : Nat) (now : Int) (url : String),
      (∀ i, i < limit → isRateLimitResp (resps i) = true) →
      (requestJson resps limit now url).result
          = Except.error ("request failed: " ++ url)
        ∧ (requestJson resps limit now url).requests = limit
        ∧ (requestJson resps limit now url).sleeps.length = limit) := by
  constructor
  · intro resps limit now url code remaining reset hlim h0 hrl
    obtain ⟨rem, rfl⟩ : ∃ rem, limit = rem + 1 :=
      ⟨limit - 1, (Nat.succ_pred_eq_of_pos hlim).symm⟩
    have hne : ¬ code = 404 := isRateLimit403_not_404 code remaining reset hrl
    have hshift : ∀ j, resps (1 + j) = (fun i => resps (i + 1)) (0 + j) := by
      intro j
      simp [Nat.add_comm]
    obtain ⟨hr, hq⟩ := requestAux_reindex resps (fun i => resps (i + 1)) now url
      rem 2 1 1 0 none hshift
    refine ⟨?_, ?_, ?_⟩
    · simp only [requestJson, requestAux, h0, hne, if_false, hrl, if_true]
      simpa using hr
    · simp only [requestJson, requestAux, h0, hne, if_false, hrl, if_true]
      simpa using hq
    · simp [requestJson, requestAux, h0, hne, hrl]
  · intro resps limit now url hall
    suffices haux : ∀ (rem attempt reqIdx : Nat),
        (∀ i, i < rem → isRateLimitResp (resps (reqIdx + i)) = true) →
        (requestAux resps now url rem attempt reqIdx none).result
            = Except.error ("request failed: " ++ url)
          ∧ (requestAux resps now url rem attempt reqIdx none).requests = rem
          ∧ (requestAux resps now url rem attempt reqIdx none).sleeps.length = rem by
      exact haux limit 1 0 (by simpa using hall)
    intro rem
    induction rem with
    | zero => intro attempt reqIdx h; exact ⟨rfl, rfl, rfl⟩
    | succ rem ih =>
      intro attempt reqIdx h
      have h0 : isRateLimitResp (resps reqIdx) = true := by
        simpa using h 0 (Nat.succ_pos rem)
      obtain ⟨code, remaining, reset, hresp, hrl⟩ := isRateLimitResp_true _ h0
      have hne : ¬ code = 404 := isRateLimit403_not_404 code remaining reset hrl
      have hrest : ∀ i, i < rem → isRateLimitResp (resps (reqIdx + 1 + i)) = true := by
        intro i hi
        have := h (i + 1) (by omega)
        simpa [Nat.add_assoc, Nat.add_comm 1 i] using this
      obtain ⟨hr, hq, hs⟩ := ih (attempt + 1) (reqIdx + 1) hrest
      refine ⟨?_, ?_, ?_⟩
      · simp only [requestAux, hresp, hne, if_false, hrl, if_true]
        exact hr
      · simp only [requestAux, hresp, hne, if_false, hrl, if_true]
        omega
      · simp only [requestAux, hresp, hne, if_false, hrl, if_true,
          List.length_cons]
        omega

/-- Witness for C1 (amended): two rate-limited responses with
`retry_limit = 2` issue exactly two requests, sleep twice
(`max(1, 100 - 0 + 1) = 101` first) and raise the generic error. -/
theorem claim_C1_rate_limit_witness :
    (requestJson (fun _ => HttpResp.httpError 403 (some "0") (some "100"))
        2 0 "u").result = Except.error ("request failed: " ++ "u")
    ∧ (requestJson (fun _ => HttpResp.httpError 403 (some "0") (some "100"))
        2 0 "u").requests = 2
    ∧ (requestJson (fun _ => HttpResp.httpError 403 (some "0") (some "100"))
        2 0 "u").sleeps.head? = some (rateLimitSleep (some "100") 0) :=
  ⟨(claim_C1_rate_limit_consumes_budget.2
      (fun _ => HttpResp.httpError 403 (some "0") (some "100")) 2 0 "u"
      (fun _ _ => rfl)).1,
   (claim_C1_rate_limit_consumes_budget.2
      (fun _ => HttpResp.httpError 403 (some "0") (some "100")) 2 0 "u"
      (fun _ _ => rfl)).2.1,
   (claim_C1_rate_limit_consumes_budget.1
      (fun _ => HttpResp.httpError 403 (some "0") (some "100")) 2 0 "u"
      403 (some "0") (some "100") (by norm_num) rfl rfl).2.2⟩

/-! ## Discovery (`GitHubClient.search_repositories`,
`runner.discover_repositories`)

Discovery is modelled over an oracle `api : Nat → Val` giving the parsed
response payload for each page of one topic (a request failure during
discovery propagates and aborts the run; it is outside these claims).  The
Python `while True` loop is given fuel; `none` means the fuel ran out, and
every statement assumes enough fuel. -/

structure SearchResult where
  repo : String
  updated_at : String
deriving DecidableEq

/-- Model of `GitHubClient.search_repositories` applied to one page payload:
extract valid items and report `len(items) == per_page` as `has_more`. -/
def search_repositories (payload : Val) (per_page : Nat) :
    List SearchResult × Bool :=
  match payload with
  | Val.obj fields =>
    match lookupKey "items" fields with
    | some (Val.arr items) =>
      (items.filterMap (fun item =>
        match item with
        | Val.obj ifields =>
          match lookupKey "full_name" ifields with
          | some (Val.str fullName) =>
            if fullName = "" then none
            else some ⟨fullName,
              match lookupKey "updated_at" ifields with
              | some (Val.str u) => u
              | _ => ""⟩
          | _ => none
        | _ => none),
       items.length == per_page)
    | _ => ([], false)
  | _ => ([], false)

/-- Model of Python `s.removesuffix(suffix)`. -/
def pyRemoveSuffix (s suffix : String) : String :=
  if strEndsWith s suffix then dropSuffix s suffix else s

/-- Model of `runner._safe_repo`. -/
def safe_repo (repo : String) : String :=
  pyStripChars ['/'] (pyRemoveSuffix (pyStrip repo) ".git")

/-- The inner loop of `discover_repositories`: add each result under its
normalized identifier unless empty or already present (first marker wins). -/
def insertDiscovered (acc : List (String × String)) (items : List SearchResult) :
    List (String × String) :=
  items.foldl (fun a it =>
    if safe_repo it.repo ≠ "" ∧ lookupKey (safe_repo it.repo) a = none
    then a ++ [(safe_repo it.repo, it.updated_at)] else a) acc

/-- Model of the per-topic `while True` paging loop of
`discover_repositories`; returns the accumulated map and the list of pages
queried. -/
def discoverTopic (api : Nat → Val) (per_page : Nat) (maxPages : Nat) :
    Nat → Nat → List (String × String) → Option (List (String × String) × List Nat)
  | 0, _, _ => none
  | fuel + 1, page, acc =>
    if ((search_repositories (api page) per_page).1).isEmpty then some (acc, [page])
    else if maxPages ≠ 0 ∧ page + 1 > maxPages
    then some (insertDiscovered acc (search_repositories (api page) per_page).1, [page])
    else if (search_repositories (api page) per_page).2 = false
    then some (insertDiscovered acc (search_repositories (api page) per_page).1, [page])
    else
      match discoverTopic api per_page maxPages fuel (page + 1)
          (insertDiscovered acc (search_repositories (api page) per_page).1) with
      | none => none
      | some (m, qs) => some (m, page :: qs)

/-- Model of `runner.discover_repositories`: chain the per-topic loops over
one shared map, then add include-list repos with an empty marker. -/
def discover_repositories (api : String → Nat → Val) (topics : List String)
    (include_repos : List String) (per_page maxPages fuel : Nat) :
    Option (List (String × String)) :=
  match topics.foldl (fun acc topic =>
    match acc with
    | none => none
    | some m => (discoverTopic (api topic) per_page maxPages fuel 1 m).map Prod.fst)
    (some []) with
  | none => none
  | some m => some (include_repos.foldl (fun m repo =>
      let normalized := safe_repo repo
      if normalized ≠ "" ∧ lookupKey normalized m = none
      then m ++ [(normalized, "")] else m) m)

theorem lookupKey_append_of_some {α : Type} (k : String) (v : α)
    (l1 l2 : List (String × α)) (h : lookupKey k l1 = some v) :
    lookupKey k (l1 ++ l2) = some v := by
  induction l1 with
  | nil => simp [lookupKey] at h
  | cons hd tl ih =>
    obtain ⟨k', v'⟩ := hd
    by_cases hk : k' = k
    · simpa [lookupKey, hk] using by simpa [lookupKey, hk] using h
    · simp only [List.cons_append, lookupKey, if_neg hk] at h ⊢
      exact ih h

theorem lookupKey_none_not_mem {α : Type} (k : String) (l : List (String × α))
    (h : lookupKey k l = none) : k ∉ l.map Prod.fst := by
  intro hmem
  obtain ⟨p, hp, he⟩ := List.mem_map.1 hmem
  have := lookupKey_isSome_of_mem k p.2 l (by simpa [← he] using hp)
  rw [h] at this
  simp at this

theorem nodupKeys_append_singleton {α : Type} (r : String) (v : α)
    (l : List (String × α)) (hnd : (l.map Prod.fst).Nodup)
    (h : lookupKey r l = none) : (((l ++ [(r, v)]).map Prod.fst)).Nodup := by
  rw [List.map_append]
  refine List.Nodup.append hnd (by simp) ?_
  intro x hx hy
  simp only [List.map_cons, List.map_nil, List.mem_singleton] at hy
  rw [hy] at hx
  exact lookupKey_none_not_mem _ l h hx

theorem insertDiscovered_nil (acc : List (String × String)) :
    insertDiscovered acc [] = acc := rfl

theorem insertDiscovered_cons (acc : List (String × String)) (it : SearchResult)
    (rest : List SearchResult) :
    insertDiscovered acc (it :: rest)
      = insertDiscovered
          (if safe_repo it.repo ≠ "" ∧ lookupKey (safe_repo it.repo) acc = none
           then acc ++ [(safe_repo it.repo, it.updated_at)] else acc) rest := rfl

theorem insertDiscovered_preserves (acc : List (String × String))
    (items : List SearchResult) (r : String) (v : String)
    (h : lookupKey r acc = some v) :
    lookupKey r (insertDiscovered acc items) = some v := by
  induction items generalizing acc with
  | nil => simpa [insertDiscovered_nil] using h
  | cons it rest ih =>
    rw [insertDiscovered_cons]
    by_cases hc : safe_repo it.repo ≠ "" ∧ lookupKey (safe_repo it.repo) acc = none
    · rw [if_pos hc]
      exact ih _ (lookupKey_append_of_some r v acc _ h)
    · rw [if_neg hc]
      exact ih _ h

theorem insertDiscovered_nodup (acc : List (String × String))
    (items : List SearchResult) (hnd : (acc.map Prod.fst).Nodup) :
    ((insertDiscovered acc items).map Prod.fst).Nodup := by
  induction items generalizing acc with
  | nil => simpa [insertDiscovered_nil] using hnd
  | cons it rest ih =>
    rw [insertDiscovered_cons]
    by_cases hc : safe_repo it.repo ≠ "" ∧ lookupKey (safe_repo it.repo) acc = none
    · rw [if_pos hc]
      exact ih _ (nodupKeys_append_singleton _ _ acc hnd hc.2)
    · rw [if_neg hc]
      exact ih _ hnd

theorem insertDiscovered_length (acc : List (String × String))
    (items : List SearchResult) :
    (insertDiscovered acc items).length ≤ acc.length + items.length := by
  induction items generalizing acc with
  | nil => simp [insertDiscovered_nil]
  | cons it rest ih =>
    rw [insertDiscovered_cons]
    by_cases hc : safe_repo it.repo ≠ "" ∧ lookupKey (safe_repo it.repo) acc = none
    · rw [if_pos hc]
      have := ih (acc ++ [(safe_repo it.repo, it.updated_at)])
      simp only [List.length_append, List.length_cons, List.length_nil] at this ⊢
      omega
    · rw [if_neg hc]
      have := ih acc
      simp only [List.length_cons] at this ⊢
      omega

theorem discoverTopic_lower (api : Nat → Val) (per_page maxPages : Nat) :
    ∀ (fuel page : Nat) (acc m : List (String × String)) (qs : List Nat),
      discoverTopic api per_page maxPages fuel page acc = some (m, qs) →
      ∀ p ∈ qs, page ≤ p := by
  intro fuel
  induction fuel with
  | zero =>
    intro page acc m qs h
    simp [discoverTopic] at h
  | succ fuel ih =>
    intro page acc m qs h p hp
    rw [discoverTopic] at h
    split at h
    · simp only [Option.some.injEq, Prod.mk.injEq] at h
      rw [← h.2] at hp
      simp only [List.mem_singleton] at hp
      omega
    · split at h
      · simp only [Option.some.injEq, Prod.mk.injEq] at h
        rw [← h.2] at hp
        simp only [List.mem_singleton] at hp
        omega
      · split at h
        · simp only [Option.some.injEq, Prod.mk.injEq] at h
          rw [← h.2] at hp
          simp only [List.mem_singleton] at hp
          omega
        · split at h
          · exact absurd h (by simp)
          · rename_i m' qs' heq
            simp only [Option.some.injEq, Prod.mk.injEq] at h
            rw [← h.2] at hp
            rcases List.mem_cons.1 hp with h2 | h2
            · omega
            · have := ih (page + 1) _ m' qs' heq p h2
              omega

theorem discoverTopic_stop (api : Nat → Val) (per_page maxPages : Nat) :
    ∀ (fuel page : Nat) (acc m : List (String × String)) (qs : List Nat),
      discoverTopic api per_page maxPages fuel page acc = some (m, qs) →
      ∀ p ∈ qs, ((search_repositories (api p) per_page).1 = []
          ∨ (search_repositories (api p) per_page).2 = false
          ∨ (maxPages ≠ 0 ∧ p + 1 > maxPages)) →
      ∀ q ∈ qs, q ≤ p := by
  intro fuel
  induction fuel with
  | zero =>
    intro page acc m qs h
    simp [discoverTopic] at h
  | succ fuel ih =>
    intro page acc m qs h p hp hstop q hq
    rw [discoverTopic] at h
    split at h
    · simp only [Option.some.injEq, Prod.mk.injEq] at h
      rw [← h.2] at hp hq
      simp only [List.mem_singleton] at hp hq
      omega
    · rename_i hne
      split at h
      · simp only [Option.some.injEq, Prod.mk.injEq] at h
        rw [← h.2] at hp hq
        simp only [List.mem_singleton] at hp hq
        omega
      · rename_i hcap
        split at h
        · simp only [Option.some.injEq, Prod.mk.injEq] at h
          rw [← h.2] at hp hq
          simp only [List.mem_singleton] at hp hq
          omega
        · rename_i hnext
          split at h
          · exact absurd h (by simp)
          · rename_i m' qs' heq
            simp only [Option.some.injEq, Prod.mk.injEq] at h
            rw [← h.2] at hp hq
            have hppage : p ≠ page := by
              intro hpp
              subst hpp
              rcases hstop with h2 | h2 | h2
              · rw [List.isEmpty_iff] at hne
                exact hne h2
              · exact hnext h2
              · exact hcap h2
            have hpin : p ∈ qs' := by
              rcases List.mem_cons.1 hp with h2 | h2
              · exact absurd h2 hppage
              · exact h2
            rcases List.mem_cons.1 hq with h2 | h2
            · have hlow := discoverTopic_lower api per_page maxPages fuel (page + 1)
                _ m' qs' heq p hpin
              omega
            · exact ih (page + 1) _ m' qs' heq p hpin hstop q h2

theorem discoverTopic_preserves (api : Nat → Val) (per_page maxPages : Nat) :
    ∀ (fuel page : Nat) (acc m : List (String × String)) (qs : List Nat),
      discoverTopic api per_page maxPages fuel page acc = some (m, qs) →
      ∀ (r v : String), lookupKey r acc = some v → lookupKey r m = some v := by
  intro fuel
  induction fuel with
  | zero =>
    intro page acc m qs h
    simp [discoverTopic] at h
  | succ fuel ih =>
    intro page acc m qs h r v hv
    rw [discoverTopic] at h
    split at h
    · simp only [Option.some.injEq, Prod.mk.injEq] at h
      rw [← h.1]
      exact hv
    · split at h
      · simp only [Option.some.injEq, Prod.mk.injEq] at h
        rw [← h.1]
        exact insertDiscovered_preserves acc _ r v hv
      · split at h
        · simp only [Option.some.injEq, Prod.mk.injEq] at h
          rw [← h.1]
          exact insertDiscovered_preserves acc _ r v hv
        · split at h
          · exact absurd h (by simp)
          · rename_i m' qs' heq
            simp only [Option.some.injEq, Prod.mk.injEq] at h
            rw [← h.1]
            exact ih (page + 1) _ m' qs' heq r v
              (insertDiscovered_preserves acc _ r v hv)

theorem discoverTopic_nodup (api : Nat → Val) (per_page maxPages : Nat) :
    ∀ (fuel page : Nat) (acc m : List (String × String)) (qs : List Nat),
      discoverTopic api per_page maxPages fuel page acc = some (m, qs) →
      (acc.map Prod.fst).Nodup → (m.map Prod.fst).Nodup := by
  intro fuel
  induction fuel with
  | zero =>
    intro page acc m qs h
    simp [discoverTopic] at h
  | succ fuel ih =>
    intro page acc m qs h hnd
    rw [discoverTopic] at h
    split at h
    · simp only [Option.some.injEq, Prod.mk.injEq] at h
      rw [← h.1]
      exact hnd
    · split at h
      · simp only [Option.some.injEq, Prod.mk.injEq] at h
        rw [← h.1]
        exact insertDiscovered_nodup acc _ hnd
      · split at h
        · simp only [Option.some.injEq, Prod.mk.injEq] at h
          rw [← h.1]
          exact insertDiscovered_nodup acc _ hnd
        · split at h
          · exact absurd h (by simp)
          · rename_i m' qs' heq
            simp only [Option.some.injEq, Prod.mk.injEq] at h
            rw [← h.1]
            exact ih (page + 1) _ m' qs' heq (insertDiscovered_nodup acc _ hnd)

/-- C8: per-topic paging stops at any page with empty extracted results, a
false `has_more` (the raw item count differs from `per_page` — in particular
a short page), or the page cap; no later page is queried.  The accumulated
map keeps the first-seen marker for an identifier (an existing binding is
never overwritten) and its keys stay duplicate-free.  Scenario: pages of
100, 100 and 40 items with no page cap query exactly pages 1, 2, 3 and
collect at most 240 unique identifiers. -/
theorem claim_C8_discovery_paging :
    (∀ (api : Nat → Val) (per_page maxPages fuel page : Nat)
      (acc m : List (String × String)) (qs : List Nat),
      discoverTopic api per_page maxPages fuel page acc = some (m, qs) →
      ∀ p ∈ qs, ((search_repositories (api p) per_page).1 = []
          ∨ (search_repositories (api p) per_page).2 = false
          ∨ (maxPages ≠ 0 ∧ p + 1 > maxPages)) →
      ∀ q ∈ qs, q ≤ p)
    ∧ (∀ (api : Nat → Val) (per_page maxPages fuel page : Nat)
      (acc m : List (String × String)) (qs : List Nat),
      discoverTopic api per_page maxPages fuel page acc = some (m, qs) →
      (∀ (r v : String), lookupKey r acc = some v → lookupKey r m = some v)
        ∧ ((acc.map Prod.fst).Nodup → (m.map Prod.fst).Nodup))
    ∧ (∀ (api : Nat → Val) (r1 r2 r3 : List SearchResult) (f : Nat),
      search_repositories (api 1) 100 = (r1, true) → r1.length = 100 →
      search_repositories (api 2) 100 = (r2, true) → r2.length = 100 →
      search_repositories (api 3) 100 = (r3, false) → r3.length = 40 →
      ∃ m, discoverTopic api 100 0 (f + 3) 1 [] = some (m, [1, 2, 3])
        ∧ (m.map Prod.fst).Nodup ∧ m.length ≤ 240) := by
  refine ⟨fun api pp mp fuel page acc m qs h =>
      discoverTopic_stop api pp mp fuel page acc m qs h,
    fun api pp mp fuel page acc m qs h =>
      ⟨discoverTopic_preserves api pp mp fuel page acc m qs h,
       discoverTopic_nodup api pp mp fuel page acc m qs h⟩, ?_⟩
  intro api r1 r2 r3 f h1 hl1 h2 hl2 h3 hl3
  have hne1 : r1.isEmpty = false := by
    cases r1
    · simp at hl1
    · rfl
  have hne2 : r2.isEmpty = false := by
    cases r2
    · simp at hl2
    · rfl
  have hne3 : r3.isEmpty = false := by
    cases r3
    · simp at hl3
    · rfl
  have e3 : discoverTopic api 100 0 (f + 1) 3
        (insertDiscovered (insertDiscovered [] r1) r2)
      = some (insertDiscovered (insertDiscovered (insertDiscovered [] r1) r2) r3,
          [3]) := by
    rw [discoverTopic]
    simp [h3, hne3]
  have e2 : discoverTopic api 100 0 (f + 2) 2 (insertDiscovered [] r1)
      = some (insertDiscovered (insertDiscovered (insertDiscovered [] r1) r2) r3,
          [2, 3]) := by
    rw [show f + 2 = (f + 1) + 1 from rfl, discoverTopic]
    simp [h2, hne2, e3]
  have e1 : discoverTopic api 100 0 (f + 3) 1 []
      = some (insertDiscovered (insertDiscovered (insertDiscovered [] r1) r2) r3,
          [1, 2, 3]) := by
    rw [show f + 3 = (f + 2) + 1 from rfl, discoverTopic]
    simp [h1, hne1, e2]
  refine ⟨_, e1, ?_, ?_⟩
  · exact insertDiscovered_nodup _ _
      (insertDiscovered_nodup _ _ (insertDiscovered_nodup _ _ (by simp)))
  · have b3 := insertDiscovered_length
      (insertDiscovered (insertDiscovered [] r1) r2) r3
    have b2 := insertDiscovered_length (insertDiscovered [] r1) r2
    have b1 := insertDiscovered_length [] r1
    simp only [List.length_nil] at b1
    omega

/-- Sample search payloads used by the C8 witness. -/
def samplePage (n : Nat) : Val :=
  Val.obj [("items", Val.arr (List.replicate n (Val.obj [("full_name", Val.str "o/r")])))]

def sampleApi : Nat → Val := fun p => if p = 3 then samplePage 40 else samplePage 100

/-- Witness for C8: a concrete topic whose pages hold 100, 100 and 40 valid
items. -/
theorem claim_C8_discovery_paging_witness :
    ∃ m, discoverTopic sampleApi 100 0 (0 + 3) 1 [] = some (m, [1, 2, 3])
      ∧ (m.map Prod.fst).Nodup ∧ m.length ≤ 240 :=
  claim_C8_discovery_paging.2.2 sampleApi
    (List.replicate 100 ⟨"o/r", ""⟩) (List.replicate 100 ⟨"o/r", ""⟩)
    (List.replicate 40 ⟨"o/r", ""⟩) 0
    rfl (by simp) rfl (by simp) rfl (by simp)

/-! ## Runner (`src/indexer/runner.py`)

The per-repo fetches are an oracle: `repoMeta` models
`GitHubClient.fetch_repository` (`Except.error` = a raised
`GitHubRequestError`, `none` = a non-dict/404 payload) and `tree` models
`GitHubClient.fetch_repository_tree` (already filtered to its item list).
`time.time()` during a run is the parameter `now`. -/

structure Config where
  topics : List String
  include_repos : List String
  per_page : Nat
  max_pages_per_topic : Nat
  stale_after_days : Int
  min_stars : Int
  skip_archived : Bool
  skip_disabled : Bool
  sort_by : String
  sort_order : String
  output_path : String

structure FetchOracle where
  repoMeta : String → Except String (Option (List (String × Val)))
  tree : String → String → Except String (List Val)

/-- The guard of the minimum-star rejection:
`isinstance(stars, int) and stars < config.min_stars` (Python `bool` is an
`int`). -/
def starFilterHit (stars : Option Val) (minStars : Int) : Bool :=
  isIntLike stars
    && decide ((match stars with | some v => intLikeVal v | none => 0) < minStars)

/-- The message of the minimum-star rejection:
`f"below min_stars ({stars} < {config.min_stars})"`. -/
def starMsg (stars : Option Val) (minStars : Int) : String :=
  "below min_stars (" ++ (match stars with | some v => pyStr v | none => "None")
    ++ " < " ++ toString minStars ++ ")"

/-- The part of `_build_entry_for_repo` after the minimum-star filter:
archived/disabled rejection, tree fetch at the default branch (falling back
to `HEAD`), variant extraction and entry synthesis. -/
def afterStarFilter (cfg : Config) (o : FetchOracle) (repo : String)
    (repoPayload : List (String × Val)) : Except String Val :=
  if cfg.skip_archived && (match lookupKey "archived" repoPayload with
      | some (Val.bool true) => true
      | _ => false) then Except.error "repository archived"
  else if cfg.skip_disabled && (match lookupKey "disabled" repoPayload with
      | some (Val.bool true) => true
      | _ => false) then Except.error "repository disabled"
  else
    match o.tree repo (match lookupKey "default_branch" repoPayload with
      | some (Val.str s) => if s = "" then "HEAD" else s
      | _ => "HEAD") with
    | Except.error e => Except.error e
    | Except.ok treeItems => build_entry repoPayload (extract_colorschemes treeItems)

/-- Model of `runner._build_entry_for_repo`. -/
def build_entry_for_repo (cfg : Config) (o : FetchOracle) (repo : String) :
    Except String Val :=
  match o.repoMeta repo with
  | Except.error e => Except.error e
  | Except.ok none => Except.error "repository metadata not found"
  | Except.ok (some repoPayload) =>
    if repoPayload.isEmpty then Except.error "repository metadata not found"
    else if starFilterHit (lookupKey "stargazers_count" repoPayload) cfg.min_stars
    then Except.error (starMsg (lookupKey "stargazers_count" repoPayload) cfg.min_stars)
    else afterStarFilter cfg o repo repoPayload

/-- A row of the state store as the runner sees it, with the payload kept as
the decoded value (`upsert_repo` serializes with `json.dumps` and readers
decode with `json.loads`, an identity round trip on values). -/
structure StoreRecord where
  repo : String
  updated_at : String
  scanned_at : Int
  payload : Val
  parse_error : Option String

/-- Lookup by primary key. -/
def storeFind (store : List StoreRecord) (repo : String) : Option StoreRecord :=
  store.find? (fun rec => rec.repo == repo)

/-- Model of `StateStore.upsert_repo`: replace the row in place, else append
(`ON CONFLICT DO UPDATE` keeps the rowid, insertion appends). -/
def upsert_repo (store : List StoreRecord) (repo updated_at : String)
    (payload : Val) (parse_error : Option String) (now : Int) : List StoreRecord :=
  match store with
  | [] => [⟨repo, updated_at, now, payload, parse_error⟩]
  | rec :: rest =>
    if rec.repo = repo then ⟨repo, updated_at, now, payload, parse_error⟩ :: rest
    else rec :: upsert_repo rest repo updated_at payload parse_error now

/-- The `read_repo` view of a stored record (payload exposed iff a dict). -/
def recordView (rec : StoreRecord) : RepoView :=
  ⟨rec.repo, rec.updated_at, rec.scanned_at,
   (match rec.payload with | Val.obj fs => some (Val.obj fs) | _ => none),
   rec.parse_error⟩

def readView (store : List StoreRecord) (repo : String) : Option RepoView :=
  (storeFind store repo).map recordView

/-- State threaded through the refresh loop of `run_once`. -/
structure LoopState where
  store : List StoreRecord
  entries : List (String × Val)
  fetched : Nat
  cached : Nat
  errors : Nat

/-- The marker stored with a fetched entry:
`entry.get("updated_at") if isinstance(entry.get("updated_at"), str) else ""`. -/
def entryUpdatedAt (entry : Val) : String :=
  match entry with
  | Val.obj fs =>
    match lookupKey "updated_at" fs with
    | some (Val.str u) => u
    | _ => ""
  | _ => ""

/-- One iteration of the refresh loop of `run_once` for a discovered
`(repo, marker)` pair.  In the error branch the stored marker is
`discovered_updated_at or ""`, which equals the marker itself. -/
def refreshStep (cfg : Config) (o : FetchOracle) (now : Int) (st : LoopState)
    (rm : String × String) : LoopState :=
  if should_refresh (readView st.store rm.1) rm.2 cfg.stale_after_days now = false then
    match readView st.store rm.1 with
    | some v =>
      match v.payload with
      | some (Val.obj fs) =>
        { st with entries := setKey rm.1 (Val.obj fs) st.entries,
                  cached := st.cached + 1 }
      | _ => st
    | none => st
  else
    match build_entry_for_repo cfg o rm.1 with
    | Except.ok entry =>
      { st with
        store := upsert_repo st.store rm.1 (entryUpdatedAt entry) entry none now,
        entries := setKey rm.1 entry st.entries,
        fetched := st.fetched + 1 }
    | Except.error e =>
      { st with
        store := upsert_repo st.store rm.1 rm.2
          (Val.obj [("repo", Val.str rm.1)]) (some e) now,
        errors := st.errors + 1 }

/-- The refresh loop over the discovered map. -/
def refreshLoop (cfg : Config) (o : FetchOracle) (now : Int)
    (discovered : List (String × String)) (st : LoopState) : LoopState :=
  discovered.foldl (refreshStep cfg o now) st

theorem storeFind_upsert_self (store : List StoreRecord) (repo updated_at : String)
    (payload : Val) (parse_error : Option String) (now : Int) :
    storeFind (upsert_repo store repo updated_at payload parse_error now) repo
      = some ⟨repo, updated_at, now, payload, parse_error⟩ := by
  induction store with
  | nil => simp [upsert_repo, storeFind]
  | cons rec rest ih =>
    by_cases h : rec.repo = repo
    · simp [upsert_repo, storeFind, h]
    · simpa [upsert_repo, storeFind, List.find?_cons, h] using ih

theorem storeFind_upsert_ne (store : List StoreRecord) (repo updated_at : String)
    (payload : Val) (parse_error : Option String) (now : Int) (other : String)
    (h : other ≠ repo) :
    storeFind (upsert_repo store repo updated_at payload parse_error now) other
      = storeFind store other := by
  induction store with
  | nil => simp [upsert_repo, storeFind, Ne.symm h]
  | cons rec rest ih =>
    by_cases hk : rec.repo = repo
    · by_cases ho : rec.repo = other
      · exact absurd (ho.symm.trans hk) h
      · simp [upsert_repo, storeFind, hk, ho, Ne.symm h]
    · by_cases ho : rec.repo = other
      · simp [upsert_repo, storeFind, hk, ho, h]
      · simpa [upsert_repo, storeFind, hk, ho] using ih

/-- C9 counterexample.  The claim says a payload whose `stargazers_count` is
missing or not an integer bypasses the star filter and yields an entry with
stars 0; but `build_entry` computes `repo_data.get("stargazers_count") or 0`,
so a truthy non-integer (here the string "5") is carried into the entry
unchanged.  Concrete instance: metadata with `stargazers_count = "5"` and
`min_stars = 3` builds successfully with stars `"5"`, not `0`. -/
theorem claim_C9_counterexample :
    ¬ (∀ (cfg : Config) (o : FetchOracle) (repo : String)
        (fs : List (String × Val)) (entry : Val),
        o.repoMeta repo = Except.ok (some fs) →
        isIntLike (lookupKey "stargazers_count" fs) = false →
        build_entry_for_repo cfg o repo = Except.ok entry →
        ∃ efs, entry = Val.obj efs
          ∧ lookupKey "stars" efs = some (Val.int 0)) := by
  intro hall
  have h := hall ⟨[], [], 100, 0, 14, 3, true, true, "stars", "desc", "themes.json"⟩
    ⟨fun _ => Except.ok (some [("full_name", Val.str "o/r"),
        ("stargazers_count", Val.str "5")]),
     fun _ _ => Except.ok []⟩
    "o/r" [("full_name", Val.str "o/r"), ("stargazers_count", Val.str "5")]
    (Val.obj [("name", Val.str "r"), ("repo", Val.str "o/r"),
      ("colorscheme", Val.str "r"), ("description", Val.str ""),
      ("stars", Val.str "5"), ("topics", Val.arr []),
      ("updated_at", Val.str ""), ("archived", Val.bool false),
      ("disabled", Val.bool false)])
    rfl rfl rfl
  obtain ⟨efs, hE, hstars⟩ := h
  have hefs : efs = [("name", Val.str "r"), ("repo", Val.str "o/r"),
      ("colorscheme", Val.str "r"), ("description", Val.str ""),
      ("stars", Val.str "5"), ("topics", Val.arr []),
      ("updated_at", Val.str ""), ("archived", Val.bool false),
      ("disabled", Val.bool false)] := by
    injection hE.symm
  rw [hefs] at hstars
  simp [lookupKey] at hstars

/-- C9 (amended): the minimum-star rejection fires exactly when
`stargazers_count` is int-like (a Python `int`, including `bool`) and below
`min_stars`; a payload whose `stargazers_count` is missing or not an integer
bypasses the filter entirely.  The built entry's `stars` value is
`stargazers_count or 0`: the raw value when truthy — even a non-integer —
and `0` only when the field is missing or falsy. -/
theorem claim_C9_star_filter :
    (∀ (cfg : Config) (o : FetchOracle) (repo : String) (fs : List (String × Val)),
      o.repoMeta repo = Except.ok (some fs) → fs ≠ [] →
      (starFilterHit (lookupKey "stargazers_count" fs) cfg.min_stars = true →
        build_entry_for_repo cfg o repo
          = Except.error (starMsg (lookupKey "stargazers_count" fs) cfg.min_stars))
      ∧ (starFilterHit (lookupKey "stargazers_count" fs) cfg.min_stars = false →
        build_entry_for_repo cfg o repo = afterStarFilter cfg o repo fs))
    ∧ (∀ (stars : Option Val) (m : Int),
      isIntLike stars = false → starFilterHit stars m = false)
    ∧ (∀ (repoData : List (String × Val)) (colors : List String) (entry : Val),
      build_entry repoData colors = Except.ok entry →
      ∃ efs, entry = Val.obj efs ∧ lookupKey "stars" efs
        = some (pyOr (lookupKey "stargazers_count" repoData) (Val.int 0))) := by
  refine ⟨?_, ?_, ?_⟩
  · intro cfg o repo fs hmeta hne
    have hempty : fs.isEmpty = false := by
      cases fs
      · exact absurd rfl hne
      · rfl
    constructor
    · intro hfire
      rw [build_entry_for_repo, hmeta]
      simp [hempty, hfire]
    · intro hmiss
      rw [build_entry_for_repo, hmeta]
      simp [hempty, hmiss]
  · intro stars m h
    simp [starFilterHit, h]
  · intro repoData colors entry h
    unfold build_entry at h
    split at h
    · rename_i fullName hfn
      split at h
      · simp only [Except.ok.injEq] at h
        refine ⟨_, h.symm, ?_⟩
        split
        · simp [lookupKey]
        · simp [lookupKey]
      · exact absurd h (by simp)
    · exact absurd h (by simp)

/-- Witness for C9 (amended): a string-valued `stargazers_count` bypasses
the filter, and an int-like value below the floor fires it. -/
theorem claim_C9_star_filter_witness :
    build_entry_for_repo
        ⟨[], [], 100, 0, 14, 3, true, true, "stars", "desc", "themes.json"⟩
        ⟨fun _ => Except.ok (some [("full_name", Val.str "o/r"),
            ("stargazers_count", Val.str "5")]), fun _ _ => Except.ok []⟩ "o/r"
      = afterStarFilter
        ⟨[], [], 100, 0, 14, 3, true, true, "stars", "desc", "themes.json"⟩
        ⟨fun _ => Except.ok (some [("full_name", Val.str "o/r"),
            ("stargazers_count", Val.str "5")]), fun _ _ => Except.ok []⟩ "o/r"
        [("full_name", Val.str "o/r"), ("stargazers_count", Val.str "5")]
    ∧ build_entry_for_repo
        ⟨[], [], 100, 0, 14, 3, true, true, "stars", "desc", "themes.json"⟩
        ⟨fun _ => Except.ok (some [("full_name", Val.str "o/r"),
            ("stargazers_count", Val.int 1)]), fun _ _ => Except.ok []⟩ "o/r"
      = Except.error (starMsg (some (Val.int 1)) 3) :=
  ⟨((claim_C9_star_filter.1 _ _ "o/r" _ rfl (by simp)).2 rfl),
   ((claim_C9_star_filter.1 _ _ "o/r"
      [("full_name", Val.str "o/r"), ("stargazers_count", Val.int 1)]
      rfl (by simp)).1 rfl)⟩

theorem starMsg_ne_empty (stars : Option Val) (m : Int) : starMsg stars m ≠ "" := by
  intro h
  have hl := congrArg String.length h
  simp [starMsg, String.length_append] at hl
  exact absurd hl.1.1.1.1 (by decide)

theorem build_entry_error_msg (repoData : List (String × Val)) (colors : List String)
    (e : String) (h : build_entry repoData colors = Except.error e) :
    e = "invalid repository payload" := by
  unfold build_entry at h
  split at h
  · split at h
    · exact absurd h (by simp)
    · injection h with h2
      exact h2.symm
  · injection h with h2
    exact h2.symm

theorem afterStarFilter_error_ne (cfg : Config) (o : FetchOracle) (repo : String)
    (fs : List (String × Val)) (e : String)
    (h2 : ∀ (r b e' : String), o.tree r b = Except.error e' → e' ≠ "")
    (hb : afterStarFilter cfg o repo fs = Except.error e) : e ≠ "" := by
  unfold afterStarFilter at hb
  split at hb
  · injection hb with h3
    rw [← h3]
    decide
  · split at hb
    · injection hb with h3
      rw [← h3]
      decide
    · split at hb
      · rename_i e' heq
        injection hb with h3
        rw [← h3]
        exact h2 _ _ e' heq
      · rw [build_entry_error_msg _ _ e hb]
        decide

theorem build_entry_for_repo_error_ne (cfg : Config) (o : FetchOracle)
    (repo e : String)
    (h1 : ∀ (r e' : String), o.repoMeta r = Except.error e' → e' ≠ "")
    (h2 : ∀ (r b e' : String), o.tree r b = Except.error e' → e' ≠ "")
    (hb : build_entry_for_repo cfg o repo = Except.error e) : e ≠ "" := by
  rw [build_entry_for_repo] at hb
  split at hb
  · rename_i e' heq
    injection hb with h3
    rw [← h3]
    exact h1 _ e' heq
  · injection hb with h3
    rw [← h3]
    decide
  · rename_i fs heq
    split at hb
    · injection hb with h3
      rw [← h3]
      decide
    · split at hb
      · injection hb with h3
        rw [← h3]
        exact starMsg_ne_empty _ _
      · exact afterStarFilter_error_ne cfg o repo fs e h2 hb

/-- C5: in the refresh loop, a repo whose live fetch fails — by filter
rejection (below star floor, archived, disabled, metadata absent) or request
failure — gets an error record upserted under its identifier (marker
`discovered_updated_at or ""`, payload `{"repo": repo}`, `parse_error` the
message), the error counter goes up by exactly one, the fetched (and cached)
counters and the working set are unchanged, and the loop proceeds with the
remaining identifiers unconditionally.  A non-empty message makes
`should_refresh` true on any later run, and every failure message is
non-empty (the request layer never raises an empty description:
`GitHubRequestError(last_error or f"request failed: {url}")`). -/
theorem claim_C5_error_isolation :
    (∀ (cfg : Config) (o : FetchOracle) (now : Int) (st : LoopState)
      (repo m e : String),
      should_refresh (readView st.store repo) m cfg.stale_after_days now = true →
      build_entry_for_repo cfg o repo = Except.error e →
      (refreshStep cfg o now st (repo, m)).store
          = upsert_repo st.store repo m (Val.obj [("repo", Val.str repo)])
              (some e) now
        ∧ (refreshStep cfg o now st (repo, m)).entries = st.entries
        ∧ (refreshStep cfg o now st (repo, m)).fetched = st.fetched
        ∧ (refreshStep cfg o now st (repo, m)).cached = st.cached
        ∧ (refreshStep cfg o now st (repo, m)).errors = st.errors + 1
        ∧ (e ≠ "" → ∀ (m' : String) (d t : Int),
            should_refresh
              (readView (refreshStep cfg o now st (repo, m)).store repo)
              m' d t = true))
    ∧ (∀ (cfg : Config) (o : FetchOracle) (now : Int) (st : LoopState)
      (rm : String × String) (rest : List (String × String)),
      refreshLoop cfg o now (rm :: rest) st
        = refreshLoop cfg o now rest (refreshStep cfg o now st rm))
    ∧ (∀ (cfg : Config) (o : FetchOracle) (repo e : String),
      (∀ (r e' : String), o.repoMeta r = Except.error e' → e' ≠ "") →
      (∀ (r b e' : String), o.tree r b = Except.error e' → e' ≠ "") →
      build_entry_for_repo cfg o repo = Except.error e → e ≠ "") := by
  refine ⟨?_, fun cfg o now st rm rest => rfl, build_entry_for_repo_error_ne⟩
  intro cfg o now st repo m e hsr hbuild
  have hstep : refreshStep cfg o now st (repo, m)
      = { st with
          store := upsert_repo st.store repo m (Val.obj [("repo", Val.str repo)])
            (some e) now,
          errors := st.errors + 1 } := by
    rw [refreshStep]
    simp only [hsr, hbuild]
    rfl
  refine ⟨by rw [hstep], by rw [hstep], by rw [hstep], by rw [hstep],
    by rw [hstep], ?_⟩
  intro hne m' d t
  rw [hstep]
  simp only [readView, storeFind_upsert_self, Option.map_some]
  simp [should_refresh, recordView, pyTruthyStrOpt, hne]

/-- Witness for C5: the spec scenario — a fetched item with `archived=true`
under `skip_archived=true` is rejected, errors +1, fetched unchanged, and
the new record forces refresh later. -/
theorem claim_C5_error_isolation_witness :
    (refreshStep ⟨[], [], 100, 0, 14, 0, true, true, "stars", "desc", "t.json"⟩
        ⟨fun _ => Except.ok (some [("full_name", Val.str "o/r"),
            ("archived", Val.bool true)]), fun _ _ => Except.ok []⟩
        0 ⟨[], [], 0, 0, 0⟩ ("o/r", "m")).errors = 0 + 1
    ∧ (refreshStep ⟨[], [], 100, 0, 14, 0, true, true, "stars", "desc", "t.json"⟩
        ⟨fun _ => Except.ok (some [("full_name", Val.str "o/r"),
            ("archived", Val.bool true)]), fun _ _ => Except.ok []⟩
        0 ⟨[], [], 0, 0, 0⟩ ("o/r", "m")).fetched = 0
    ∧ should_refresh (readView
        (refreshStep ⟨[], [], 100, 0, 14, 0, true, true, "stars", "desc", "t.json"⟩
          ⟨fun _ => Except.ok (some [("full_name", Val.str "o/r"),
              ("archived", Val.bool true)]), fun _ _ => Except.ok []⟩
          0 ⟨[], [], 0, 0, 0⟩ ("o/r", "m")).store "o/r") "x" 1 99 = true :=
  ⟨(claim_C5_error_isolation.1
      ⟨[], [], 100, 0, 14, 0, true, true, "stars", "desc", "t.json"⟩
      ⟨fun _ => Except.ok (some [("full_name", Val.str "o/r"),
          ("archived", Val.bool true)]), fun _ _ => Except.ok []⟩
      0 ⟨[], [], 0, 0, 0⟩ "o/r" "m" "repository archived"
      rfl rfl).2.2.2.2.1,
   (claim_C5_error_isolation.1
      ⟨[], [], 100, 0, 14, 0, true, true, "stars", "desc", "t.json"⟩
      ⟨fun _ => Except.ok (some [("full_name", Val.str "o/r"),
          ("archived", Val.bool true)]), fun _ _ => Except.ok []⟩
      0 ⟨[], [], 0, 0, 0⟩ "o/r" "m" "repository archived"
      rfl rfl).2.2.1,
   (claim_C5_error_isolation.1
      ⟨[], [], 100, 0, 14, 0, true, true, "stars", "desc", "t.json"⟩
      ⟨fun _ => Except.ok (some [("full_name", Val.str "o/r"),
          ("archived", Val.bool true)]), fun _ _ => Except.ok []⟩
      0 ⟨[], [], 0, 0, 0⟩ "o/r" "m" "repository archived"
      rfl rfl).2.2.2.2.2 (by decide) "x" 1 99⟩

/-! ## Full run (`runner.run_once`)

The outputs are modelled at the value level: `_write_json` serializes
deterministically (`json.dumps` with fixed options, key order = dict
insertion order), so two registry artifacts are byte-identical exactly when
their entry-list values are equal.  The manifest's `sha256` is the hash of
the registry bytes, modelled through an abstract hash function on the
registry value; `generated_at` is the run's timestamp. -/

structure Manifest where
  schema_version : Nat
  generated_at : Int
  entries : Nat
  registry_path : String
  sha256 : String
deriving DecidableEq

/-- The external inputs of one run: the search payload oracle, the per-repo
fetch oracle, the parsed overrides file, and the content-hash function. -/
structure World where
  searchApi : String → Nat → Val
  fetch : FetchOracle
  overrides : List (List (String × Val))
  excluded : List String
  hash : List (List (String × Val)) → String

/-- Model of `Path(p).name`. -/
def pyBasename (p : String) : String :=
  String.mk ((p.toList.reverse.takeWhile (· ≠ '/')).reverse)

/-- Payload column of the rows whose `parse_error` is NULL and whose payload
is a dict — `list_payloads` over the runner's store. -/
def storePayloads (store : List StoreRecord) : List Val :=
  store.filterMap (fun rec =>
    if rec.parse_error = none then
      (match rec.payload with | Val.obj fs => some (Val.obj fs) | _ => none)
    else none)

/-- One step of the `entries_by_repo` preload: key a payload by its own
`repo` field when that is a non-empty string. -/
def preloadStep (m : List (String × Val)) (payload : Val) : List (String × Val) :=
  match payload with
  | Val.obj fs =>
    match lookupKey "repo" fs with
    | some (Val.str r) => if r = "" then m else setKey r (Val.obj fs) m
    | _ => m
  | _ => m

/-- The preload of `entries_by_repo` from `store.list_payloads()`, keyed by
each payload's own `repo` field. -/
def preloadEntries (store : List StoreRecord) : List (String × Val) :=
  (storePayloads store).foldl preloadStep []

/-- Unwrap `list(entries_by_repo.values())` to the dicts it holds. -/
def entriesValues (l : List (String × Val)) : List (List (String × Val)) :=
  l.filterMap (fun kv => match kv.2 with | Val.obj fs => some fs | _ => none)

/-- Ascending comparison on the configured sort key.  Registry entries carry
a string `name`/`updated_at` and an int-like `stars`; ties compare equal, so
the stable sort keeps their original order. -/
def sortKeyLe (cfg : Config) (a b : List (String × Val)) : Bool :=
  if cfg.sort_by = "name" then
    pyStrLe
      (pyLower (match pyOr (lookupKey "name" a) (Val.str "") with
        | Val.str s => s | _ => ""))
      (pyLower (match pyOr (lookupKey "name" b) (Val.str "") with
        | Val.str s => s | _ => ""))
  else if cfg.sort_by = "updated_at" then
    pyStrLe
      (match pyOr (lookupKey "updated_at" a) (Val.str "") with
        | Val.str s => s | _ => "")
      (match pyOr (lookupKey "updated_at" b) (Val.str "") with
        | Val.str s => s | _ => "")
  else
    decide (intLikeVal (pyOr (lookupKey "stars" a) (Val.int 0))
      ≤ intLikeVal (pyOr (lookupKey "stars" b) (Val.int 0)))

/-- The comparison `sorted` uses: ascending, or flipped for `desc`; in both
directions ties answer true, preserving the original order (stability). -/
def sortLe (cfg : Config) (a b : List (String × Val)) : Bool :=
  if cfg.sort_order = "desc" then sortKeyLe cfg b a else sortKeyLe cfg a b

def insertEntrySorted (cfg : Config) (x : List (String × Val)) :
    List (List (String × Val)) → List (List (String × Val))
  | [] => [x]
  | y :: ys => if sortLe cfg x y then x :: y :: ys else y :: insertEntrySorted cfg x ys

/-- Model of `runner._sort_entries` (Python `sorted` is a stable sort). -/
def sort_entries (cfg : Config) :
    List (List (String × Val)) → List (List (String × Val))
  | [] => []
  | x :: xs => insertEntrySorted cfg x (sort_entries cfg xs)

/-- Result of one `run_once`, carrying the artifacts at the value level and
the final working set and store for cross-run statements. -/
structure RunResult where
  discovered : List (String × String)
  fetched : Nat
  cached : Nat
  errors : Nat
  written : Nat
  store : List StoreRecord
  entries : List (String × Val)
  registry : List (List (String × Val))
  manifest : Manifest

/-- Model of `runner.run_once` (discovery → preload → refresh loop → merge →
sort → write registry and manifest).  `none` only when discovery fuel runs
out. -/
def run_once (cfg : Config) (w : World) (fuel : Nat)
    (store0 : List StoreRecord) (now : Int) : Option RunResult :=
  match discover_repositories w.searchApi cfg.topics cfg.include_repos
      cfg.per_page cfg.max_pages_per_topic fuel with
  | none => none
  | some discovered =>
    let st := refreshLoop cfg w.fetch now discovered
      ⟨store0, preloadEntries store0, 0, 0, 0⟩
    let merged := apply_overrides (entriesValues st.entries) w.overrides w.excluded
    let sorted := sort_entries cfg merged
    some ⟨discovered, st.fetched, st.cached, st.errors, sorted.length,
      st.store, st.entries, sorted,
      ⟨1, now, sorted.length, pyBasename cfg.output_path, w.hash sorted⟩⟩

/-- Concrete world for the C4 counterexample: one topic, two repos both
refreshed by a marker change that happened before run 1.  `a/a` has a cached
success but is now archived (its refresh fails), `b/b` has a cached error
but now fetches fine. -/
def ceItem (r m : String) : Val :=
  Val.obj [("full_name", Val.str r), ("updated_at", Val.str m)]

def ceConfig : Config := ⟨["t"], [], 2, 0, 14, 0, true, true, "stars", "desc",
  "themes.json"⟩

def ceWorld : World :=
  ⟨fun _ page => if page = 1
      then Val.obj [("items", Val.arr [ceItem "a/a" "new", ceItem "b/b" "new"])]
      else Val.obj [("items", Val.arr [])],
   ⟨fun r => if r = "a/a"
      then Except.ok (some [("full_name", Val.str "a/a"),
        ("archived", Val.bool true)])
      else Except.ok (some [("full_name", Val.str "b/b"),
        ("stargazers_count", Val.int 5), ("updated_at", Val.str "new")]),
    fun _ _ => Except.ok []⟩,
   [], [], fun _ => "h"⟩

def ceStore : List StoreRecord :=
  [⟨"a/a", "old", 0, Val.obj [("repo", Val.str "a/a"), ("name", Val.str "aold"),
      ("stars", Val.int 5)], none⟩,
   ⟨"b/b", "old", 0, Val.obj [("repo", Val.str "b/b")], some "boom"⟩]

/-- C4 counterexample.  Two consecutive runs of `run_once` against identical
upstream state (the same oracles), the second 100 seconds after the first —
well inside the 14-day staleness window.  The artifacts are not
byte-identical: the manifest embeds the generation timestamp
(`generated_at` 100 vs 200), and the registries differ because run 1 keeps
the preloaded stale payload of `a/a` alongside its new error record while
run 2 drops it, and re-inserts `b/b` at a different position. -/
theorem claim_C4_counterexample :
    ∃ r1 r2, run_once ceConfig ceWorld 3 ceStore 100 = some r1
      ∧ run_once ceConfig ceWorld 3 r1.store 200 = some r2
      ∧ r1.registry ≠ r2.registry
      ∧ r1.manifest ≠ r2.manifest := by
  have key1 : (run_once ceConfig ceWorld 3 ceStore 100).map
      (fun r => (r.registry.length, r.manifest))
      = some (2, ⟨1, 100, 2, "themes.json", "h"⟩) := rfl
  have key2 : (run_once ceConfig ceWorld 3 ceStore 100).bind (fun r1 =>
      (run_once ceConfig ceWorld 3 r1.store 200).map
        (fun r => (r.registry.length, r.manifest)))
      = some (1, ⟨1, 200, 1, "themes.json", "h"⟩) := rfl
  obtain ⟨r1, hr1⟩ : ∃ r1, run_once ceConfig ceWorld 3 ceStore 100 = some r1 :=
    ⟨_, rfl⟩
  rw [hr1] at key1 key2
  simp only [Option.map_some', Option.some_bind, Option.some.injEq,
    Prod.mk.injEq] at key1
  obtain ⟨r2, hr2⟩ : ∃ r2, run_once ceConfig ceWorld 3 r1.store 200 = some r2 := by
    cases hrun : run_once ceConfig ceWorld 3 r1.store 200 with
    | none =>
      rw [Option.some_bind, hrun] at key2
      simp at key2
    | some r => exact ⟨r, rfl⟩
  rw [Option.some_bind, hr2] at key2
  simp only [Option.map_some', Option.some.injEq, Prod.mk.injEq] at key2
  refine ⟨r1, r2, hr1, hr2, ?_, ?_⟩
  · intro h
    have hlen : r1.registry.length = r2.registry.length := congrArg List.length h
    rw [key1.1, key2.1] at hlen
    simp at hlen
  · intro h
    rw [key1.2, key2.2] at h
    exact absurd h (by decide)

/-! ### Well-formed stores and the canonical working-set preload

Every record the runner itself writes has a non-empty key, a dict payload
whose `repo` field is the key, and a parse error that is `NULL` or a
non-empty message.  Under this invariant the `entries_by_repo` preload is
the store's success rows in order. -/

def StoreWF (store : List StoreRecord) : Prop :=
  (store.map StoreRecord.repo).Nodup
  ∧ ∀ rec ∈ store, rec.repo ≠ ""
    ∧ (∃ fs, rec.payload = Val.obj fs
        ∧ lookupKey "repo" fs = some (Val.str rec.repo))
    ∧ rec.parse_error ≠ some ""

def canonicalPreload (store : List StoreRecord) : List (String × Val) :=
  store.filterMap (fun rec =>
    if rec.parse_error = none then some (rec.repo, rec.payload) else none)

theorem setKey_self_eq {α : Type} (k : String) (v : α) (l : List (String × α))
    (h : lookupKey k l = some v) : setKey k v l = l := by
  induction l with
  | nil => simp [lookupKey] at h
  | cons hd tl ih =>
    obtain ⟨k', v'⟩ := hd
    by_cases hk : k' = k
    · subst hk
      simp [lookupKey] at h
      simp [setKey, h]
    · simp only [lookupKey, if_neg hk] at h
      simp [setKey, hk, ih h]

theorem setKey_append_of_absent {α : Type} (k : String) (v : α)
    (l : List (String × α)) (h : lookupKey k l = none) :
    setKey k v l = l ++ [(k, v)] := by
  induction l with
  | nil => simp [setKey]
  | cons hd tl ih =>
    obtain ⟨k', v'⟩ := hd
    by_cases hk : k' = k
    · simp [lookupKey, hk] at h
    · simp only [lookupKey, if_neg hk] at h
      simp [setKey, hk, ih h]

theorem lookupKey_append_none {α : Type} (k : String) (l1 l2 : List (String × α))
    (h : lookupKey k l1 = none) : lookupKey k (l1 ++ l2) = lookupKey k l2 := by
  induction l1 with
  | nil => simp
  | cons hd tl ih =>
    obtain ⟨k', v'⟩ := hd
    by_cases hk : k' = k
    · simp [lookupKey, hk] at h
    · simp only [lookupKey, if_neg hk] at h
      simpa [lookupKey, hk] using ih h

theorem storeFind_none (store : List StoreRecord) (r : String)
    (h : storeFind store r = none) : ∀ rec ∈ store, rec.repo ≠ r := by
  intro rec hrec heq
  have := List.find?_eq_none.1 h rec hrec
  simp [heq] at this

theorem storeFind_mem (store : List StoreRecord) (r : String) (rec : StoreRecord)
    (h : storeFind store r = some rec) : rec ∈ store ∧ rec.repo = r := by
  have hm := List.mem_of_find?_eq_some h
  have hp := List.find?_some h
  simp at hp
  exact ⟨hm, hp⟩

theorem mem_upsert (store : List StoreRecord) (r u : String) (p : Val)
    (e : Option String) (t : Int) (rec : StoreRecord)
    (h : rec ∈ upsert_repo store r u p e t) :
    rec = ⟨r, u, t, p, e⟩ ∨ rec ∈ store := by
  induction store with
  | nil => simpa [upsert_repo] using h
  | cons hd tl ih =>
    by_cases hk : hd.repo = r
    · simp only [upsert_repo, if_pos hk, List.mem_cons] at h
      rcases h with h | h
      · exact Or.inl h
      · exact Or.inr (List.mem_cons_of_mem _ h)
    · simp only [upsert_repo, if_neg hk, List.mem_cons] at h
      rcases h with h | h
      · exact Or.inr (by simp [h])
      · rcases ih h with h2 | h2
        · exact Or.inl h2
        · exact Or.inr (List.mem_cons_of_mem _ h2)

theorem upsert_nodup (store : List StoreRecord) (r u : String) (p : Val)
    (e : Option String) (t : Int)
    (h : (store.map StoreRecord.repo).Nodup) :
    ((upsert_repo store r u p e t).map StoreRecord.repo).Nodup := by
  induction store with
  | nil => simp [upsert_repo]
  | cons hd tl ih =>
    simp only [List.map_cons, List.nodup_cons] at h
    by_cases hk : hd.repo = r
    · simp only [upsert_repo, if_pos hk, List.map_cons, List.nodup_cons]
      exact ⟨by simpa [hk] using h.1, h.2⟩
    · simp only [upsert_repo, if_neg hk, List.map_cons, List.nodup_cons]
      refine ⟨fun hm => ?_, ih h.2⟩
      obtain ⟨rec, hrec, heq⟩ := List.mem_map.1 hm
      rcases mem_upsert tl r u p e t rec hrec with h2 | h2
      · rw [h2] at heq
        exact hk heq.symm
      · exact h.1 (List.mem_map.2 ⟨rec, h2, heq⟩)

theorem StoreWF_upsert (store : List StoreRecord) (r u : String) (p : Val)
    (e : Option String) (t : Int) (hwf : StoreWF store) (hr : r ≠ "")
    (hp : ∃ fs, p = Val.obj fs ∧ lookupKey "repo" fs = some (Val.str r))
    (he : e ≠ some "") : StoreWF (upsert_repo store r u p e t) := by
  refine ⟨upsert_nodup store r u p e t hwf.1, ?_⟩
  intro rec hrec
  rcases mem_upsert store r u p e t rec hrec with h2 | h2
  · subst h2
    exact ⟨hr, hp, he⟩
  · exact hwf.2 rec h2

theorem canonicalPreload_lookup (store : List StoreRecord) (r : String)
    (hnd : (store.map StoreRecord.repo).Nodup) :
    lookupKey r (canonicalPreload store)
      = match storeFind store r with
        | some rec => if rec.parse_error = none then some rec.payload else none
        | none => none := by
  induction store with
  | nil => simp [canonicalPreload, storeFind]
  | cons hd tl ih =>
    simp only [List.map_cons, List.nodup_cons] at hnd
    by_cases hk : hd.repo = r
    · have hfind : storeFind (hd :: tl) r = some hd := by
        simp [storeFind, List.find?_cons, hk]
      rw [hfind]
      cases he : hd.parse_error with
      | none =>
        simp only [canonicalPreload, List.filterMap_cons, he, if_pos rfl]
        simp [lookupKey, hk, he]
      | some msg =>
        simp only [canonicalPreload, List.filterMap_cons, he]
        have htl : lookupKey r (canonicalPreload tl) = none := by
          rw [ih hnd.2]
          cases hf : storeFind tl r with
          | none => rfl
          | some rec2 =>
            have := (storeFind_mem tl r rec2 hf).1
            exact absurd (List.mem_map.2 ⟨rec2, this, (storeFind_mem tl r rec2 hf).2⟩)
              (hk ▸ hnd.1)
        simpa using htl
    · have hfind : storeFind (hd :: tl) r = storeFind tl r := by
        simp [storeFind, List.find?_cons, hk]
      rw [hfind, ← ih hnd.2]
      cases he : hd.parse_error with
      | none =>
        simp only [canonicalPreload, List.filterMap_cons, he, if_pos rfl]
        simp [lookupKey, hk]
      | some msg => simp [canonicalPreload, List.filterMap_cons, he]

theorem preloadAux (store : List StoreRecord) :
    ∀ acc : List (String × Val),
      (store.map StoreRecord.repo).Nodup →
      (∀ rec ∈ store, rec.repo ≠ "" ∧ ∃ fs, rec.payload = Val.obj fs
        ∧ lookupKey "repo" fs = some (Val.str rec.repo)) →
      (∀ rec ∈ store, lookupKey rec.repo acc = none) →
      (storePayloads store).foldl preloadStep acc = acc ++ canonicalPreload store := by
  induction store with
  | nil => intro acc _ _ _; simp [storePayloads, canonicalPreload]
  | cons rec rest ih =>
    intro acc hnd hshape habs
    simp only [List.map_cons, List.nodup_cons] at hnd
    obtain ⟨hne, fs, hpay, hfield⟩ := hshape rec (List.mem_cons_self _ _)
    cases he : rec.parse_error with
    | some msg =>
      have hsp : storePayloads (rec :: rest) = storePayloads rest := by
        simp [storePayloads, List.filterMap_cons, he]
      have hcp : canonicalPreload (rec :: rest) = canonicalPreload rest := by
        simp [canonicalPreload, List.filterMap_cons, he]
      rw [hsp, hcp]
      exact ih acc hnd.2 (fun r hr => hshape r (List.mem_cons_of_mem _ hr))
        (fun r hr => habs r (List.mem_cons_of_mem _ hr))
    | none =>
      have hsp : storePayloads (rec :: rest)
          = Val.obj fs :: storePayloads rest := by
        simp [storePayloads, List.filterMap_cons, he, hpay]
      have hcp : canonicalPreload (rec :: rest)
          = (rec.repo, rec.payload) :: canonicalPreload rest := by
        simp [canonicalPreload, List.filterMap_cons, he]
      rw [hsp, hcp, List.foldl_cons]
      have hstep : preloadStep acc (Val.obj fs) = acc ++ [(rec.repo, rec.payload)] := by
        simp only [preloadStep, hfield, if_neg hne]
        rw [setKey_append_of_absent _ _ _ (habs rec (List.mem_cons_self _ _)), hpay]
      rw [hstep]
      rw [ih (acc ++ [(rec.repo, rec.payload)]) hnd.2
        (fun r hr => hshape r (List.mem_cons_of_mem _ hr)) ?_]
      · simp
      · intro r hr
        have hra : lookupKey r.repo acc = none := habs r (List.mem_cons_of_mem _ hr)
        rw [lookupKey_append_none _ _ _ hra]
        have hnr : r.repo ≠ rec.repo := by
          intro hcontra
          exact hnd.1 (List.mem_map.2 ⟨r, hr, hcontra⟩)
        simp [lookupKey, Ne.symm hnr]

theorem preload_eq_canonical (store : List StoreRecord) (hwf : StoreWF store) :
    preloadEntries store = canonicalPreload store := by
  have := preloadAux store [] hwf.1
    (fun rec hrec => ⟨(hwf.2 rec hrec).1, (hwf.2 rec hrec).2.1⟩)
    (fun rec _ => rfl)
  simpa [preloadEntries] using this

theorem canonicalPreload_cons_ok (rec : StoreRecord) (tl : List StoreRecord)
    (h : rec.parse_error = none) :
    canonicalPreload (rec :: tl) = (rec.repo, rec.payload) :: canonicalPreload tl := by
  simp [canonicalPreload, List.filterMap_cons, h]

theorem canonicalPreload_cons_err (rec : StoreRecord) (tl : List StoreRecord)
    (msg : String) (h : rec.parse_error = some msg) :
    canonicalPreload (rec :: tl) = canonicalPreload tl := by
  simp [canonicalPreload, List.filterMap_cons, h]

theorem canonicalPreload_upsert_ok (store : List StoreRecord) (r u : String)
    (p : Val) (t : Int)
    (hold : storeFind store r = none
      ∨ ∃ rec, storeFind store r = some rec ∧ rec.parse_error = none) :
    canonicalPreload (upsert_repo store r u p none t)
      = setKey r p (canonicalPreload store) := by
  induction store with
  | nil => simp [upsert_repo, canonicalPreload, setKey]
  | cons hd tl ih =>
    by_cases hk : hd.repo = r
    · have hfind : storeFind (hd :: tl) r = some hd := by
        simp [storeFind, List.find?_cons, hk]
      have hhd : hd.parse_error = none := by
        rcases hold with h | ⟨rec, hrec, he⟩
        · rw [hfind] at h; exact absurd h (by simp)
        · rw [hfind] at hrec
          obtain rfl : hd = rec := by injection hrec
          exact he
      have h1 : upsert_repo (hd :: tl) r u p none t
          = (⟨r, u, t, p, none⟩ : StoreRecord) :: tl := by
        rw [upsert_repo, if_pos hk]
      rw [h1, canonicalPreload_cons_ok ⟨r, u, t, p, none⟩ tl rfl,
        canonicalPreload_cons_ok hd tl hhd]
      simp [setKey, hk]
    · have hfind : storeFind (hd :: tl) r = storeFind tl r := by
        simp [storeFind, List.find?_cons, hk]
      rw [hfind] at hold
      have h1 : upsert_repo (hd :: tl) r u p none t
          = hd :: upsert_repo tl r u p none t := by
        rw [upsert_repo, if_neg hk]
      rw [h1]
      cases he : hd.parse_error with
      | none =>
        rw [canonicalPreload_cons_ok hd _ he, canonicalPreload_cons_ok hd tl he,
          ih hold]
        simp [setKey, hk]
      | some m1 =>
        rw [canonicalPreload_cons_err hd _ m1 he,
          canonicalPreload_cons_err hd tl m1 he]
        exact ih hold

theorem canonicalPreload_upsert_err (store : List StoreRecord) (r u : String)
    (p : Val) (msg : String) (t : Int)
    (hold : storeFind store r = none
      ∨ ∃ rec, storeFind store r = some rec ∧ rec.parse_error ≠ none) :
    canonicalPreload (upsert_repo store r u p (some msg) t)
      = canonicalPreload store := by
  induction store with
  | nil => simp [upsert_repo, canonicalPreload]
  | cons hd tl ih =>
    by_cases hk : hd.repo = r
    · have hfind : storeFind (hd :: tl) r = some hd := by
        simp [storeFind, List.find?_cons, hk]
      have hhd : hd.parse_error ≠ none := by
        rcases hold with h | ⟨rec, hrec, he⟩
        · rw [hfind] at h; exact absurd h (by simp)
        · rw [hfind] at hrec
          obtain rfl : hd = rec := by injection hrec
          exact he
      obtain ⟨m0, hm0⟩ : ∃ m0, hd.parse_error = some m0 := by
        cases hpe : hd.parse_error with
        | none => exact absurd hpe hhd
        | some m0 => exact ⟨m0, rfl⟩
      have h1 : upsert_repo (hd :: tl) r u p (some msg) t
          = (⟨r, u, t, p, some msg⟩ : StoreRecord) :: tl := by
        rw [upsert_repo, if_pos hk]
      rw [h1, canonicalPreload_cons_err ⟨r, u, t, p, some msg⟩ tl msg rfl,
        canonicalPreload_cons_err hd tl m0 hm0]
    · have hfind : storeFind (hd :: tl) r = storeFind tl r := by
        simp [storeFind, List.find?_cons, hk]
      rw [hfind] at hold
      have h1 : upsert_repo (hd :: tl) r u p (some msg) t
          = hd :: upsert_repo tl r u p (some msg) t := by
        rw [upsert_repo, if_neg hk]
      rw [h1]
      cases he : hd.parse_error with
      | none =>
        rw [canonicalPreload_cons_ok hd _ he, canonicalPreload_cons_ok hd tl he,
          ih hold]
      | some m1 =>
        rw [canonicalPreload_cons_err hd _ m1 he,
          canonicalPreload_cons_err hd tl m1 he]
        exact ih hold

theorem pyTruthyStrOpt_false_iff (e : Option String) (hne : e ≠ some "") :
    pyTruthyStrOpt e = false ↔ e = none := by
  cases e with
  | none => simp [pyTruthyStrOpt]
  | some s =>
    simp only [pyTruthyStrOpt, bne_eq_false_iff_eq]
    constructor
    · intro h
      exact absurd (by rw [h]) hne
    · intro h
      exact absurd h (by simp)

theorem should_refresh_false_iff (v : RepoView) (m : String) (d t : Int) :
    should_refresh (some v) m d t = false ↔
      pyTruthyStrOpt v.parse_error = false ∧ (m = "" ∨ v.updated_at = m)
        ∧ t - v.scanned_at < max 1 d * (24 * 60 * 60) := by
  rw [should_refresh]
  by_cases he : pyTruthyStrOpt v.parse_error = true
  · simp [he]
  · simp only [Bool.not_eq_true] at he
    by_cases hm : m = "" ∨ v.updated_at = m
    · have hmb : (m != "" && v.updated_at != m) = false := by
        rcases hm with h | h <;> simp [h]
      rw [if_neg (by simp [he]), hmb]
      simp [he, hm]
    · have hmb : (m != "" && v.updated_at != m) = true := by
        push_neg at hm
        simp [hm.1, hm.2]
      rw [if_neg (by simp [he]), hmb]
      simp [he, hm]

theorem should_refresh_true_of_error (v : RepoView) (m : String) (d t : Int)
    (h : pyTruthyStrOpt v.parse_error = true) :
    should_refresh (some v) m d t = true := by
  simp [should_refresh, h]

/-- The record a discovered `(repo, marker)` pair ends up with after its
refresh-loop iteration, as a function of the record it had before. -/
def repoOutcome (cfg : Config) (o : FetchOracle) (now : Int)
    (old : Option StoreRecord) (r m : String) : Option StoreRecord :=
  if should_refresh (old.map recordView) m cfg.stale_after_days now = false then old
  else match build_entry_for_repo cfg o r with
    | Except.ok entry => some ⟨r, entryUpdatedAt entry, now, entry, none⟩
    | Except.error e => some ⟨r, m, now, Val.obj [("repo", Val.str r)], some e⟩

theorem refreshStep_norefresh (cfg : Config) (o : FetchOracle) (now : Int)
    (st : LoopState) (rm : String × String)
    (h : should_refresh (readView st.store rm.1) rm.2 cfg.stale_after_days now
      = false) :
    (refreshStep cfg o now st rm).store = st.store
      ∧ (refreshStep cfg o now st rm).fetched = st.fetched
      ∧ (refreshStep cfg o now st rm).errors = st.errors := by
  rw [refreshStep, if_pos h]
  split
  · split <;> exact ⟨rfl, rfl, rfl⟩
  · exact ⟨rfl, rfl, rfl⟩

theorem refreshStep_ok (cfg : Config) (o : FetchOracle) (now : Int)
    (st : LoopState) (rm : String × String) (entry : Val)
    (h : should_refresh (readView st.store rm.1) rm.2 cfg.stale_after_days now
      = true)
    (hb : build_entry_for_repo cfg o rm.1 = Except.ok entry) :
    refreshStep cfg o now st rm
      = { st with
          store := upsert_repo st.store rm.1 (entryUpdatedAt entry) entry none now,
          entries := setKey rm.1 entry st.entries,
          fetched := st.fetched + 1 } := by
  rw [refreshStep, if_neg (by simp [h]), hb]

theorem refreshStep_err (cfg : Config) (o : FetchOracle) (now : Int)
    (st : LoopState) (rm : String × String) (e : String)
    (h : should_refresh (readView st.store rm.1) rm.2 cfg.stale_after_days now
      = true)
    (hb : build_entry_for_repo cfg o rm.1 = Except.error e) :
    refreshStep cfg o now st rm
      = { st with
          store := upsert_repo st.store rm.1 rm.2
            (Val.obj [("repo", Val.str rm.1)]) (some e) now,
          errors := st.errors + 1 } := by
  rw [refreshStep, if_neg (by simp [h]), hb]

theorem refreshStep_storeFind_ne (cfg : Config) (o : FetchOracle) (now : Int)
    (st : LoopState) (rm : String × String) (x : String) (hx : x ≠ rm.1) :
    storeFind (refreshStep cfg o now st rm).store x = storeFind st.store x := by
  by_cases h : should_refresh (readView st.store rm.1) rm.2 cfg.stale_after_days now
      = false
  · rw [(refreshStep_norefresh cfg o now st rm h).1]
  · simp only [Bool.not_eq_false] at h
    cases hb : build_entry_for_repo cfg o rm.1 with
    | ok entry =>
      rw [refreshStep_ok cfg o now st rm entry h hb]
      exact storeFind_upsert_ne _ _ _ _ _ _ _ hx
    | error e =>
      rw [refreshStep_err cfg o now st rm e h hb]
      exact storeFind_upsert_ne _ _ _ _ _ _ _ hx

theorem refreshStep_storeFind_self (cfg : Config) (o : FetchOracle) (now : Int)
    (st : LoopState) (rm : String × String) :
    storeFind (refreshStep cfg o now st rm).store rm.1
      = repoOutcome cfg o now (storeFind st.store rm.1) rm.1 rm.2 := by
  have hview : readView st.store rm.1 = (storeFind st.store rm.1).map recordView := rfl
  by_cases h : should_refresh (readView st.store rm.1) rm.2 cfg.stale_after_days now
      = false
  · rw [(refreshStep_norefresh cfg o now st rm h).1, repoOutcome,
      if_pos (by rw [← hview]; exact h)]
  · simp only [Bool.not_eq_false] at h
    rw [repoOutcome, if_neg (by rw [← hview]; simp [h])]
    cases hb : build_entry_for_repo cfg o rm.1 with
    | ok entry =>
      rw [refreshStep_ok cfg o now st rm entry h hb]
      exact storeFind_upsert_self _ _ _ _ _ _
    | error e =>
      rw [refreshStep_err cfg o now st rm e h hb]
      exact storeFind_upsert_self _ _ _ _ _ _

theorem refreshLoop_storeFind (cfg : Config) (o : FetchOracle) (now : Int) :
    ∀ (discovered : List (String × String)) (st : LoopState) (x : String),
      (discovered.map Prod.fst).Nodup →
      storeFind (refreshLoop cfg o now discovered st).store x
        = match lookupKey x discovered with
          | some m => repoOutcome cfg o now (storeFind st.store x) x m
          | none => storeFind st.store x := by
  intro discovered
  induction discovered with
  | nil => intro st x _; rfl
  | cons rm rest ih =>
    intro st x hnd
    obtain ⟨r, m⟩ := rm
    simp only [List.map_cons, List.nodup_cons] at hnd
    rw [refreshLoop, List.foldl_cons]
    by_cases hx : x = r
    · subst hx
      have hlook : lookupKey x ((x, m) :: rest) = some m := by
        simp [lookupKey]
      rw [hlook]
      have hrest : lookupKey x rest = none := by
        apply lookupKey_eq_none
        exact hnd.1
      have := ih (refreshStep cfg o now st (x, m)) x hnd.2
      rw [refreshLoop] at this
      rw [this, hrest]
      exact refreshStep_storeFind_self cfg o now st (x, m)
    · have hlook : lookupKey x ((r, m) :: rest) = lookupKey x rest := by
        simp [lookupKey, hx, Ne.symm hx]
      rw [hlook]
      have := ih (refreshStep cfg o now st (r, m)) x hnd.2
      rw [refreshLoop] at this
      rw [this, refreshStep_storeFind_ne cfg o now st (r, m) x hx]

theorem refreshLoop_canon (cfg : Config) (o : FetchOracle) (now : Int) :
    ∀ (discovered : List (String × String)) (st : LoopState),
      (discovered.map Prod.fst).Nodup →
      StoreWF st.store →
      st.entries = canonicalPreload st.store →
      (∀ rm ∈ discovered, rm.1 ≠ "") →
      (∀ rm ∈ discovered, ∀ entry,
        build_entry_for_repo cfg o rm.1 = Except.ok entry →
        ∃ fs, entry = Val.obj fs ∧ lookupKey "repo" fs = some (Val.str rm.1)) →
      (∀ rm ∈ discovered, ∀ e,
        build_entry_for_repo cfg o rm.1 = Except.error e → e ≠ "") →
      (∀ rm ∈ discovered, ∀ rec, storeFind st.store rm.1 = some rec →
        should_refresh (some (recordView rec)) rm.2 cfg.stale_after_days now = true →
        (rec.parse_error = none →
          ∃ entry, build_entry_for_repo cfg o rm.1 = Except.ok entry)
        ∧ (rec.parse_error ≠ none →
          ∃ e, build_entry_for_repo cfg o rm.1 = Except.error e)) →
      (refreshLoop cfg o now discovered st).entries
          = canonicalPreload (refreshLoop cfg o now discovered st).store
        ∧ StoreWF (refreshLoop cfg o now discovered st).store := by
  intro discovered
  induction discovered with
  | nil => intro st _ hwf hcanon _ _ _ _; exact ⟨hcanon, hwf⟩
  | cons rm rest ih =>
    intro st hnd hwf hcanon hkeys hshape herr hnoflip
    obtain ⟨r, m⟩ := rm
    simp only [List.map_cons, List.nodup_cons] at hnd
    rw [refreshLoop, List.foldl_cons]
    have hview : readView st.store r = (storeFind st.store r).map recordView := rfl
    have hstep : StoreWF (refreshStep cfg o now st (r, m)).store
        ∧ (refreshStep cfg o now st (r, m)).entries
          = canonicalPreload (refreshStep cfg o now st (r, m)).store := by
      by_cases hsr : should_refresh (readView st.store r) m cfg.stale_after_days now
          = false
      · obtain ⟨hst, _, _⟩ := refreshStep_norefresh cfg o now st (r, m) hsr
        refine ⟨by rw [hst]; exact hwf, ?_⟩
        rw [hst]
        cases hfind : storeFind st.store r with
        | none =>
          have : refreshStep cfg o now st (r, m) =
              { st with entries := st.entries } := by
            rw [refreshStep, if_pos hsr]
            rw [show readView st.store r = none from by rw [hview, hfind]; rfl]
        -- readView is none, so the cached branch leaves the state unchanged
          rw [this]
          exact hcanon
        | some rec =>
          obtain ⟨hne, ⟨fs, hpay, hfield⟩, hnempty⟩ :=
            hwf.2 rec (storeFind_mem st.store r rec hfind).1
          have hkey : rec.repo = r := (storeFind_mem st.store r rec hfind).2
          have hrv : readView st.store r = some (recordView rec) := by
            rw [hview, hfind]
            rfl
          have hcached : refreshStep cfg o now st (r, m)
              = { st with entries := setKey r (Val.obj fs) st.entries,
                          cached := st.cached + 1 } := by
            rw [refreshStep, if_pos hsr, hrv]
            simp only [recordView, hpay]
          rw [hcached]
          have hperr : rec.parse_error = none := by
            have hinv := (should_refresh_false_iff (recordView rec) m
              cfg.stale_after_days now).1 (by rw [← hrv]; exact hsr)
            exact (pyTruthyStrOpt_false_iff rec.parse_error hnempty).1 hinv.1
          have hlook : lookupKey r (canonicalPreload st.store) = some rec.payload := by
            rw [canonicalPreload_lookup st.store r hwf.1, hfind]
            simp [hperr]
          simp only [hcanon]
          rw [hpay] at hlook
          rw [setKey_self_eq r (Val.obj fs) _ hlook]
      · simp only [Bool.not_eq_false] at hsr
        cases hb : build_entry_for_repo cfg o r with
        | ok entry =>
          obtain ⟨fs, hofs, hfield⟩ :=
            hshape (r, m) (List.mem_cons_self _ _) entry hb
          have hold : storeFind st.store r = none
              ∨ ∃ rec, storeFind st.store r = some rec ∧ rec.parse_error = none := by
            cases hfind : storeFind st.store r with
            | none => exact Or.inl rfl
            | some rec =>
              by_cases hperr : rec.parse_error = none
              · exact Or.inr ⟨rec, rfl, hperr⟩
              · have hrv : readView st.store r = some (recordView rec) := by
                  rw [hview, hfind]; rfl
                obtain ⟨e, he⟩ := (hnoflip (r, m) (List.mem_cons_self _ _) rec hfind
                  (by rw [← hrv]; exact hsr)).2 hperr
                rw [hb] at he
                exact absurd he (by simp)
          rw [refreshStep_ok cfg o now st (r, m) entry hsr hb]
          refine ⟨?_, ?_⟩
          · exact StoreWF_upsert st.store r _ entry none now hwf
              (hkeys (r, m) (List.mem_cons_self _ _)) ⟨fs, hofs, hfield⟩ (by simp)
          · simp only
            rw [canonicalPreload_upsert_ok st.store r _ entry now hold, hcanon]
        | error e =>
          have hold : storeFind st.store r = none
              ∨ ∃ rec, storeFind st.store r = some rec ∧ rec.parse_error ≠ none := by
            cases hfind : storeFind st.store r with
            | none => exact Or.inl rfl
            | some rec =>
              by_cases hperr : rec.parse_error = none
              · have hrv : readView st.store r = some (recordView rec) := by
                  rw [hview, hfind]; rfl
                obtain ⟨entry, hentry⟩ := (hnoflip (r, m) (List.mem_cons_self _ _)
                  rec hfind (by rw [← hrv]; exact hsr)).1 hperr
                rw [hb] at hentry
                exact absurd hentry (by simp)
              · exact Or.inr ⟨rec, rfl, hperr⟩
          rw [refreshStep_err cfg o now st (r, m) e hsr hb]
          refine ⟨?_, ?_⟩
          · refine StoreWF_upsert st.store r m _ (some e) now hwf
              (hkeys (r, m) (List.mem_cons_self _ _))
              ⟨[("repo", Val.str r)], rfl, by simp [lookupKey]⟩ ?_
            intro hcontra
            exact herr (r, m) (List.mem_cons_self _ _) e hb
              (by injection hcontra)
          · simp only
            rw [canonicalPreload_upsert_err st.store r m _ e now hold, hcanon]
    refine ih (refreshStep cfg o now st (r, m)) hnd.2 hstep.1 hstep.2
      (fun x hx => hkeys x (List.mem_cons_of_mem _ hx))
      (fun x hx => hshape x (List.mem_cons_of_mem _ hx))
      (fun x hx => herr x (List.mem_cons_of_mem _ hx)) ?_
    intro x hx rec hfind hsrx
    have hxr : x.1 ≠ r := by
      intro hcontra
      exact hnd.1 (by rw [← hcontra]; exact List.mem_map.2 ⟨x, hx, rfl⟩)
    rw [refreshStep_storeFind_ne cfg o now st (r, m) x.1 hxr] at hfind
    exact hnoflip x (List.mem_cons_of_mem _ hx) rec hfind hsrx

theorem refreshLoop_run2 (cfg : Config) (o : FetchOracle) (t2 : Int)
    (store1 : List StoreRecord) (hwf1 : StoreWF store1) :
    ∀ (discovered : List (String × String)) (st : LoopState),
      (discovered.map Prod.fst).Nodup →
      st.entries = canonicalPreload store1 →
      (∀ rm ∈ discovered, storeFind st.store rm.1 = storeFind store1 rm.1) →
      (∀ rm ∈ discovered, ∃ rec, storeFind store1 rm.1 = some rec
        ∧ (rec.parse_error = none →
            should_refresh (some (recordView rec)) rm.2 cfg.stale_after_days t2
              = false)
        ∧ (rec.parse_error ≠ none →
            ∃ e, build_entry_for_repo cfg o rm.1 = Except.error e)) →
      (refreshLoop cfg o t2 discovered st).entries = canonicalPreload store1
        ∧ (refreshLoop cfg o t2 discovered st).fetched = st.fetched := by
  intro discovered
  induction discovered with
  | nil => intro st _ hcanon _ _; exact ⟨hcanon, rfl⟩
  | cons rm rest ih =>
    intro st hnd hcanon hsame hfacts
    obtain ⟨r, m⟩ := rm
    simp only [List.map_cons, List.nodup_cons] at hnd
    rw [refreshLoop, List.foldl_cons]
    obtain ⟨rec, hfind1, hfresh, herrcase⟩ := hfacts (r, m) (List.mem_cons_self _ _)
    have hfind : storeFind st.store r = some rec := by
      rw [hsame (r, m) (List.mem_cons_self _ _), hfind1]
    have hview : readView st.store r = some (recordView rec) := by
      rw [readView, hfind]
      rfl
    obtain ⟨hne, ⟨fs, hpay, hfield⟩, hnempty⟩ :=
      hwf1.2 rec (storeFind_mem store1 r rec hfind1).1
    have hstep : (refreshStep cfg o t2 st (r, m)).entries = canonicalPreload store1
        ∧ (refreshStep cfg o t2 st (r, m)).fetched = st.fetched
        ∧ (∀ x ∈ rest, storeFind (refreshStep cfg o t2 st (r, m)).store x.1
            = storeFind st.store x.1) := by
      by_cases hperr : rec.parse_error = none
      · have hsr : should_refresh (readView st.store r) m cfg.stale_after_days t2
            = false := by
          rw [hview]
          exact hfresh hperr
        obtain ⟨hst, hf, _⟩ := refreshStep_norefresh cfg o t2 st (r, m) hsr
        have hcached : refreshStep cfg o t2 st (r, m)
            = { st with entries := setKey r (Val.obj fs) st.entries,
                        cached := st.cached + 1 } := by
          rw [refreshStep, if_pos hsr, hview]
          simp only [recordView, hpay]
        have hlook : lookupKey r (canonicalPreload store1) = some rec.payload := by
          rw [canonicalPreload_lookup store1 r hwf1.1, hfind1]
          simp [hperr]
        rw [hcached]
        refine ⟨?_, rfl, ?_⟩
        · simp only [hcanon]
          rw [hpay] at hlook
          rw [setKey_self_eq r (Val.obj fs) _ hlook]
        · intro x hx
          rfl
      · have hsr : should_refresh (readView st.store r) m cfg.stale_after_days t2
            = true := by
          rw [hview]
          refine should_refresh_true_of_error _ m _ t2 ?_
          cases hpe : rec.parse_error with
          | none => exact absurd hpe hperr
          | some msg =>
            have : msg ≠ "" := by
              intro hcontra
              rw [hcontra] at hpe
              exact hnempty hpe
            simp [recordView, hpe, pyTruthyStrOpt, this]
        obtain ⟨e, hb⟩ := herrcase hperr
        rw [refreshStep_err cfg o t2 st (r, m) e hsr hb]
        refine ⟨hcanon, rfl, ?_⟩
        intro x hx
        have hxr : x.1 ≠ r := by
          intro hcontra
          exact hnd.1 (by rw [← hcontra]; exact List.mem_map.2 ⟨x, hx, rfl⟩)
        exact storeFind_upsert_ne _ _ _ _ _ _ _ hxr
    obtain ⟨he2, hf2, hpres⟩ := hstep
    have := ih (refreshStep cfg o t2 st (r, m)) hnd.2 he2
      (fun x hx => by rw [hpres x hx]; exact hsame x (List.mem_cons_of_mem _ hx))
      (fun x hx => hfacts x (List.mem_cons_of_mem _ hx))
    rw [refreshLoop] at this
    exact ⟨this.1, by rw [this.2, hf2]⟩

theorem mem_insertDiscovered (acc : List (String × String))
    (items : List SearchResult) (kv : String × String)
    (h : kv ∈ insertDiscovered acc items) : kv ∈ acc ∨ kv.1 ≠ "" := by
  induction items generalizing acc with
  | nil => exact Or.inl (by simpa [insertDiscovered_nil] using h)
  | cons it rest ih =>
    rw [insertDiscovered_cons] at h
    by_cases hc : safe_repo it.repo ≠ "" ∧ lookupKey (safe_repo it.repo) acc = none
    · rw [if_pos hc] at h
      rcases ih _ h with h2 | h2
      · rcases List.mem_append.1 h2 with h3 | h3
        · exact Or.inl h3
        · simp only [List.mem_singleton] at h3
          refine Or.inr ?_
          rw [h3]
          exact hc.1
      · exact Or.inr h2
    · rw [if_neg hc] at h
      exact ih _ h

theorem discoverTopic_keys (api : Nat → Val) (pp mp : Nat) :
    ∀ (fuel page : Nat) (acc m : List (String × String)) (qs : List Nat),
      discoverTopic api pp mp fuel page acc = some (m, qs) →
      (∀ kv ∈ acc, kv.1 ≠ "") → ∀ kv ∈ m, kv.1 ≠ "" := by
  intro fuel
  induction fuel with
  | zero =>
    intro page acc m qs h
    simp [discoverTopic] at h
  | succ fuel ih =>
    intro page acc m qs h hacc kv hkv
    have hins : ∀ kv ∈ insertDiscovered acc (search_repositories (api page) pp).1,
        kv.1 ≠ "" := by
      intro kv2 hkv2
      rcases mem_insertDiscovered _ _ kv2 hkv2 with h2 | h2
      · exact hacc kv2 h2
      · exact h2
    rw [discoverTopic] at h
    split at h
    · simp only [Option.some.injEq, Prod.mk.injEq] at h
      exact hacc kv (by rw [h.1]; exact hkv)
    · split at h
      · simp only [Option.some.injEq, Prod.mk.injEq] at h
        exact hins kv (by rw [h.1]; exact hkv)
      · split at h
        · simp only [Option.some.injEq, Prod.mk.injEq] at h
          exact hins kv (by rw [h.1]; exact hkv)
        · split at h
          · exact absurd h (by simp)
          · rename_i m' qs' heq
            simp only [Option.some.injEq, Prod.mk.injEq] at h
            exact ih (page + 1) _ m' qs' heq hins kv (by rw [h.1]; exact hkv)

theorem discover_repositories_wf (api : String → Nat → Val)
    (topics incl : List String) (pp mp fuel : Nat) (m : List (String × String))
    (h : discover_repositories api topics incl pp mp fuel = some m) :
    (m.map Prod.fst).Nodup ∧ ∀ kv ∈ m, kv.1 ≠ "" := by
  have haux : ∀ (ts : List String) (acc : Option (List (String × String)))
      (res : List (String × String)),
      ts.foldl (fun acc topic =>
        match acc with
        | none => none
        | some m0 => (discoverTopic (api topic) pp mp fuel 1 m0).map Prod.fst)
        acc = some res →
      (∀ m0, acc = some m0 → (m0.map Prod.fst).Nodup ∧ ∀ kv ∈ m0, kv.1 ≠ "") →
      (res.map Prod.fst).Nodup ∧ ∀ kv ∈ res, kv.1 ≠ "" := by
    intro ts
    induction ts with
    | nil =>
      intro acc res hfold hprop
      exact hprop res hfold
    | cons topic rest ih =>
      intro acc res hfold hprop
      rw [List.foldl_cons] at hfold
      cases hacc : acc with
      | none =>
        rw [hacc] at hfold
        have hnone : ∀ (ts2 : List String),
            ts2.foldl (fun acc topic =>
              match acc with
              | none => none
              | some m0 => (discoverTopic (api topic) pp mp fuel 1 m0).map Prod.fst)
              none = none := by
          intro ts2
          induction ts2 with
          | nil => rfl
          | cons t2 r2 ih2 => simpa using ih2
        rw [hnone rest] at hfold
        exact absurd hfold (by simp)
      | some m0 =>
        rw [hacc] at hfold
        obtain ⟨hnd0, hne0⟩ := hprop m0 hacc
        simp only at hfold
        cases hdt : discoverTopic (api topic) pp mp fuel 1 m0 with
        | none =>
          rw [hdt] at hfold
          have hnone : ∀ (ts2 : List String),
              ts2.foldl (fun acc topic =>
                match acc with
                | none => none
                | some m0 => (discoverTopic (api topic) pp mp fuel 1 m0).map Prod.fst)
                none = none := by
            intro ts2
            induction ts2 with
            | nil => rfl
            | cons t2 r2 ih2 => simpa using ih2
          rw [show ((none : Option (List (String × String) × List Nat)).map Prod.fst)
            = none from rfl, hnone rest] at hfold
          exact absurd hfold (by simp)
        | some mq =>
          obtain ⟨m1, qs1⟩ := mq
          rw [hdt] at hfold
          refine ih _ res hfold ?_
          intro m2 hm2
          simp only [Option.map_some', Option.some.injEq] at hm2
          rw [← hm2]
          exact ⟨discoverTopic_nodup (api topic) pp mp fuel 1 m0 m1 qs1 hdt hnd0,
            discoverTopic_keys (api topic) pp mp fuel 1 m0 m1 qs1 hdt hne0⟩
  rw [discover_repositories] at h
  split at h
  · exact absurd h (by simp)
  · rename_i m1 heq
    simp only [Option.some.injEq] at h
    obtain ⟨hnd1, hne1⟩ := haux topics (some []) m1 heq (by
      intro m0 hm0
      simp only [Option.some.injEq] at hm0
      rw [← hm0]
      exact ⟨by simp, by simp⟩)
    rw [← h]
    clear h heq
    induction incl generalizing m1 with
    | nil => exact ⟨hnd1, hne1⟩
    | cons repo rest ih =>
      rw [List.foldl_cons]
      by_cases hc : safe_repo repo ≠ "" ∧ lookupKey (safe_repo repo) m1 = none
      · rw [if_pos hc]
        refine ih _ (nodupKeys_append_singleton _ "" m1 hnd1 hc.2) ?_
        intro kv hkv
        rcases List.mem_append.1 hkv with h2 | h2
        · exact hne1 kv h2
        · simp only [List.mem_singleton] at h2
          rw [h2]
          exact hc.1
      · rw [if_neg hc]
        exact ih _ hnd1 hne1

theorem lookupKey_of_mem_nodup {α : Type} (k : String) (v : α)
    (l : List (String × α)) (h : (k, v) ∈ l) (hnd : (l.map Prod.fst).Nodup) :
    lookupKey k l = some v := by
  induction l with
  | nil => simp at h
  | cons hd tl ih =>
    obtain ⟨k', v'⟩ := hd
    simp only [List.map_cons, List.nodup_cons] at hnd
    rcases List.mem_cons.1 h with h2 | h2
    · cases h2
      simp [lookupKey]
    · have hk : k' ≠ k := by
        intro hcontra
        exact hnd.1 (List.mem_map.2 ⟨(k, v), h2, by simp [hcontra]⟩)
      simp only [lookupKey, if_neg hk]
      exact ih h2 hnd.2

/-- Component equations of a successful `run_once`, spelled out against the
refresh-loop state it runs. -/
theorem run_once_proj (cfg : Config) (w : World) (fuel : Nat)
    (store0 : List StoreRecord) (now : Int)
    (discovered : List (String × String)) (r : RunResult)
    (hdisc : discover_repositories w.searchApi cfg.topics cfg.include_repos
      cfg.per_page cfg.max_pages_per_topic fuel = some discovered)
    (hrun : run_once cfg w fuel store0 now = some r) :
    r.discovered = discovered
    ∧ r.store = (refreshLoop cfg w.fetch now discovered
        ⟨store0, preloadEntries store0, 0, 0, 0⟩).store
    ∧ r.entries = (refreshLoop cfg w.fetch now discovered
        ⟨store0, preloadEntries store0, 0, 0, 0⟩).entries
    ∧ r.fetched = (refreshLoop cfg w.fetch now discovered
        ⟨store0, preloadEntries store0, 0, 0, 0⟩).fetched
    ∧ r.registry = sort_entries cfg (apply_overrides (entriesValues
        (refreshLoop cfg w.fetch now discovered
          ⟨store0, preloadEntries store0, 0, 0, 0⟩).entries)
        w.overrides w.excluded)
    ∧ r.manifest = ⟨1, now, r.registry.length, pyBasename cfg.output_path,
        w.hash r.registry⟩ := by
  rw [run_once, hdisc] at hrun
  simp only [Option.some.injEq] at hrun
  subst hrun
  exact ⟨rfl, rfl, rfl, rfl, rfl, rfl⟩

/-- Executable check that a repo's build outcome is well-shaped: a success
is a dict whose `repo` field is the repo itself and a failure has a
non-empty message. -/
def entryShapeOk (cfg : Config) (o : FetchOracle) (r : String) : Bool :=
  match build_entry_for_repo cfg o r with
  | Except.ok (Val.obj fs) =>
    (match lookupKey "repo" fs with
     | some (Val.str s) => s == r
     | _ => false)
  | Except.ok _ => false
  | Except.error e => !(e == "")

theorem entryShapeOk_spec (cfg : Config) (o : FetchOracle) (r : String)
    (h : entryShapeOk cfg o r = true) :
    (∀ entry, build_entry_for_repo cfg o r = Except.ok entry →
      ∃ fs, entry = Val.obj fs ∧ lookupKey "repo" fs = some (Val.str r))
    ∧ (∀ e, build_entry_for_repo cfg o r = Except.error e → e ≠ "") := by
  unfold entryShapeOk at h
  constructor
  · intro entry he
    rw [he] at h
    cases entry with
    | obj fs =>
      have h2 : (match lookupKey "repo" fs with
          | some (Val.str s) => s == r
          | _ => false) = true := h
      refine ⟨fs, rfl, ?_⟩
      cases hl : lookupKey "repo" fs with
      | none =>
        rw [hl] at h2
        exact absurd h2 (by simp)
      | some v =>
        rw [hl] at h2
        cases v with
        | str s =>
          have h3 : s = r := by simpa using h2
          rw [h3]
        | null => exact absurd h2 (by simp)
        | bool b => exact absurd h2 (by simp)
        | int n => exact absurd h2 (by simp)
        | arr xs => exact absurd h2 (by simp)
        | obj fs2 => exact absurd h2 (by simp)
    | null => exact absurd h (by simp)
    | bool b => exact absurd h (by simp)
    | int n => exact absurd h (by simp)
    | str s => exact absurd h (by simp)
    | arr xs => exact absurd h (by simp)
  · intro e he hcontra
    rw [he, hcontra] at h
    simp at h

/-- Executable check that a repo's successful build carries the discovered
marker (or the marker is empty). -/
def markerOk (cfg : Config) (o : FetchOracle) (r m : String) : Bool :=
  match build_entry_for_repo cfg o r with
  | Except.ok entry => (m == "") || (entryUpdatedAt entry == m)
  | Except.error _ => true

theorem markerOk_spec (cfg : Config) (o : FetchOracle) (r m : String)
    (h : markerOk cfg o r m = true) :
    ∀ entry, build_entry_for_repo cfg o r = Except.ok entry →
      m = "" ∨ entryUpdatedAt entry = m := by
  intro entry he
  unfold markerOk at h
  rw [he] at h
  simp only [Bool.or_eq_true, beq_iff_eq] at h
  exact h

/-- Executable check that the record a store holds for a repo (if any) was
scanned less than `window` seconds before `t2`. -/
def storeFreshOk (store : List StoreRecord) (r : String) (t2 window : Int) :
    Bool :=
  match storeFind store r with
  | some rec => decide (t2 - rec.scanned_at < window)
  | none => true

theorem storeFreshOk_spec (store : List StoreRecord) (r : String)
    (t2 window : Int) (h : storeFreshOk store r t2 window = true) :
    ∀ rec, storeFind store r = some rec → t2 - rec.scanned_at < window := by
  intro rec hrec
  unfold storeFreshOk at h
  rw [hrec] at h
  exact of_decide_eq_true h

/-- C4 (amended): two consecutive `run_once` calls against the same oracles
produce the same registry value, a manifest identical except for its
embedded `generated_at` timestamp, zero live fetches on the second run, and
an unchanged working set — provided the starting store is well-formed,
successful builds are dicts keyed by their own repo with the discovered
marker, failures carry non-empty messages, no refreshed record flips
between success and failure during run 1, and every record of the first
run's store is still inside the staleness window at the second run's
timestamp.  (The claim's byte-identical artifacts fail as stated: the
manifest embeds `generated_at`.) -/
theorem claim_C4_idempotent_second_run (cfg : Config) (w : World) (fuel : Nat)
    (store0 : List StoreRecord) (t1 t2 : Int) (r1 r2 : RunResult)
    (hrun1 : run_once cfg w fuel store0 t1 = some r1)
    (hrun2 : run_once cfg w fuel r1.store t2 = some r2)
    (hwf : StoreWF store0)
    (hshape : ∀ rm ∈ r1.discovered, ∀ entry,
      build_entry_for_repo cfg w.fetch rm.1 = Except.ok entry →
      ∃ fs, entry = Val.obj fs ∧ lookupKey "repo" fs = some (Val.str rm.1))
    (herr : ∀ rm ∈ r1.discovered, ∀ e,
      build_entry_for_repo cfg w.fetch rm.1 = Except.error e → e ≠ "")
    (hnoflip : ∀ rm ∈ r1.discovered, ∀ rec, storeFind store0 rm.1 = some rec →
      should_refresh (some (recordView rec)) rm.2 cfg.stale_after_days t1
        = true →
      (rec.parse_error = none →
        ∃ entry, build_entry_for_repo cfg w.fetch rm.1 = Except.ok entry)
      ∧ (rec.parse_error ≠ none →
        ∃ e, build_entry_for_repo cfg w.fetch rm.1 = Except.error e))
    (hmarker : ∀ rm ∈ r1.discovered, ∀ entry,
      build_entry_for_repo cfg w.fetch rm.1 = Except.ok entry →
      rm.2 = "" ∨ entryUpdatedAt entry = rm.2)
    (hfresh : ∀ rm ∈ r1.discovered, ∀ rec, storeFind r1.store rm.1 = some rec →
      t2 - rec.scanned_at < max 1 cfg.stale_after_days * (24 * 60 * 60)) :
    r2.registry = r1.registry
      ∧ r2.manifest = { r1.manifest with generated_at := t2 }
      ∧ r2.fetched = 0
      ∧ r2.entries = r1.entries := by
  cases hdisc : discover_repositories w.searchApi cfg.topics cfg.include_repos
      cfg.per_page cfg.max_pages_per_topic fuel with
  | none =>
    rw [run_once, hdisc] at hrun1
    exact absurd hrun1 (by simp)
  | some discovered =>
  obtain ⟨hd1, hS1, hE1, _, hR1, hM1⟩ :=
    run_once_proj cfg w fuel store0 t1 discovered r1 hdisc hrun1
  obtain ⟨_, _, hE2, hF2, hR2, hM2⟩ :=
    run_once_proj cfg w fuel r1.store t2 discovered r2 hdisc hrun2
  obtain ⟨hnd, hkeysne⟩ := discover_repositories_wf w.searchApi cfg.topics
    cfg.include_repos cfg.per_page cfg.max_pages_per_topic fuel discovered hdisc
  rw [hd1] at hshape herr hnoflip hmarker hfresh
  rw [hS1] at hfresh hE2 hF2 hR2
  obtain ⟨hE1c, hwf1⟩ := refreshLoop_canon cfg w.fetch t1 discovered
    ⟨store0, preloadEntries store0, 0, 0, 0⟩ hnd hwf
    (preload_eq_canonical store0 hwf) hkeysne hshape herr hnoflip
  have hfindeq : ∀ r m, (r, m) ∈ discovered →
      storeFind (refreshLoop cfg w.fetch t1 discovered
        ⟨store0, preloadEntries store0, 0, 0, 0⟩).store r
      = repoOutcome cfg w.fetch t1 (storeFind store0 r) r m := by
    intro r m hrm
    have h := refreshLoop_storeFind cfg w.fetch t1 discovered
      ⟨store0, preloadEntries store0, 0, 0, 0⟩ r hnd
    rw [lookupKey_of_mem_nodup r m discovered hrm hnd] at h
    exact h
  have hfacts : ∀ rm ∈ discovered, ∃ rec,
      storeFind (refreshLoop cfg w.fetch t1 discovered
        ⟨store0, preloadEntries store0, 0, 0, 0⟩).store rm.1 = some rec
      ∧ (rec.parse_error = none →
          should_refresh (some (recordView rec)) rm.2 cfg.stale_after_days t2
            = false)
      ∧ (rec.parse_error ≠ none →
          ∃ e, build_entry_for_repo cfg w.fetch rm.1 = Except.error e) := by
    intro rm hrm
    obtain ⟨r, m⟩ := rm
    have hfind := hfindeq r m hrm
    rw [repoOutcome] at hfind
    by_cases hsr : should_refresh ((storeFind store0 r).map recordView) m
        cfg.stale_after_days t1 = false
    · rw [if_pos hsr] at hfind
      cases hold : storeFind store0 r with
      | none =>
        rw [hold] at hsr
        simp [should_refresh] at hsr
      | some rec =>
        rw [hold] at hfind hsr
        simp only [Option.map_some'] at hsr
        have h1 := (should_refresh_false_iff (recordView rec) m
          cfg.stale_after_days t1).1 hsr
        have hmem := storeFind_mem store0 r rec hold
        have hnem := (hwf.2 rec hmem.1).2.2
        have hperr : rec.parse_error = none :=
          (pyTruthyStrOpt_false_iff rec.parse_error hnem).1 h1.1
        refine ⟨rec, hfind, ?_, ?_⟩
        · intro _
          refine (should_refresh_false_iff (recordView rec) m
            cfg.stale_after_days t2).2 ⟨h1.1, h1.2.1, ?_⟩
          exact hfresh (r, m) hrm rec hfind
        · intro hcontra
          exact absurd hperr hcontra
    · rw [if_neg hsr] at hfind
      cases hb : build_entry_for_repo cfg w.fetch r with
      | ok entry =>
        rw [hb] at hfind
        have hfind2 : storeFind (refreshLoop cfg w.fetch t1 discovered
            ⟨store0, preloadEntries store0, 0, 0, 0⟩).store r
            = some ⟨r, entryUpdatedAt entry, t1, entry, none⟩ := hfind
        refine ⟨_, hfind2, ?_, ?_⟩
        · intro _
          refine (should_refresh_false_iff _ m cfg.stale_after_days t2).2
            ⟨rfl, ?_, ?_⟩
          · rcases hmarker (r, m) hrm entry hb with h | h
            · exact Or.inl h
            · exact Or.inr h
          · exact hfresh (r, m) hrm _ hfind2
        · intro hcontra
          simp at hcontra
      | error e =>
        rw [hb] at hfind
        have hfind2 : storeFind (refreshLoop cfg w.fetch t1 discovered
            ⟨store0, preloadEntries store0, 0, 0, 0⟩).store r
            = some ⟨r, m, t1, Val.obj [("repo", Val.str r)], some e⟩ := hfind
        refine ⟨_, hfind2, ?_, ?_⟩
        · intro hcontra
          simp at hcontra
        · intro _
          exact ⟨e, rfl⟩
  have hrun2fact := refreshLoop_run2 cfg w.fetch t2
    (refreshLoop cfg w.fetch t1 discovered
      ⟨store0, preloadEntries store0, 0, 0, 0⟩).store hwf1 discovered
    ⟨(refreshLoop cfg w.fetch t1 discovered
        ⟨store0, preloadEntries store0, 0, 0, 0⟩).store,
      preloadEntries (refreshLoop cfg w.fetch t1 discovered
        ⟨store0, preloadEntries store0, 0, 0, 0⟩).store, 0, 0, 0⟩ hnd
    (preload_eq_canonical _ hwf1) (fun rm _ => rfl) hfacts
  have hent : r2.entries = r1.entries := by
    rw [hE2, hrun2fact.1, ← hE1c, ← hE1]
  have hreg : r2.registry = r1.registry := by
    rw [hR2, hrun2fact.1, ← hE1c, ← hR1]
  have hf : r2.fetched = 0 := by
    rw [hF2]
    exact hrun2fact.2
  have hman : r2.manifest = { r1.manifest with generated_at := t2 } := by
    rw [hM2, hreg, hM1]
  exact ⟨hreg, hman, hf, hent⟩

/-- Configuration and world for the C4 idempotence witness: one topic whose
search yields the single repo `a/a` with marker `m1`, whose metadata and
tree fetch successfully into an entry carrying that marker. -/
def c4wCfg : Config :=
  ⟨["t"], [], 2, 0, 14, 0, true, true, "stars", "desc", "themes.json"⟩

def c4wWorld : World :=
  ⟨fun _ page => if page = 1
      then Val.obj [("items", Val.arr [Val.obj [("full_name", Val.str "a/a"),
        ("updated_at", Val.str "m1")]])]
      else Val.obj [("items", Val.arr [])],
   ⟨fun r => if r = "a/a"
      then Except.ok (some [("full_name", Val.str "a/a"),
        ("stargazers_count", Val.int 5), ("updated_at", Val.str "m1"),
        ("description", Val.str "d")])
      else Except.error "boom",
    fun _ _ => Except.ok [Val.obj [("path", Val.str "colors/x.vim"),
      ("type", Val.str "blob")]]⟩,
   [], [], fun _ => "h"⟩

/-- C4 witness: concrete discharge of `claim_C4_idempotent_second_run` — an
empty store, a first run at time 0 fetching `a/a`, and a second run at time
100 (inside the 14-day window) reproducing the registry and the manifest up
to `generated_at` with zero fetches. -/
theorem claim_C4_witness :
    ∃ r1 r2, run_once c4wCfg c4wWorld 3 [] 0 = some r1
      ∧ run_once c4wCfg c4wWorld 3 r1.store 100 = some r2
      ∧ r2.registry = r1.registry
      ∧ r2.manifest = { r1.manifest with generated_at := 100 }
      ∧ r2.fetched = 0
      ∧ r2.entries = r1.entries := by
  obtain ⟨r1, hr1⟩ : ∃ r1, run_once c4wCfg c4wWorld 3 [] 0 = some r1 := ⟨_, rfl⟩
  obtain ⟨r2, hr2⟩ : ∃ r2, run_once c4wCfg c4wWorld 3 r1.store 100 = some r2 := by
    cases hrun : run_once c4wCfg c4wWorld 3 r1.store 100 with
    | none =>
      rw [run_once] at hrun
      rw [show discover_repositories c4wWorld.searchApi c4wCfg.topics
        c4wCfg.include_repos c4wCfg.per_page c4wCfg.max_pages_per_topic 3
        = some [("a/a", "m1")] from rfl] at hrun
      simp at hrun
    | some r => exact ⟨r, rfl⟩
  have hd1 : r1.discovered = [("a/a", "m1")] := by
    have h : (run_once c4wCfg c4wWorld 3 [] 0).map RunResult.discovered
        = some [("a/a", "m1")] := rfl
    rw [hr1] at h
    simpa using h
  have hfr : (run_once c4wCfg c4wWorld 3 [] 0).map
      (fun r => storeFreshOk r.store "a/a" 100
        (max 1 c4wCfg.stale_after_days * (24 * 60 * 60))) = some true := rfl
  rw [hr1] at hfr
  simp only [Option.map_some', Option.some.injEq] at hfr
  have hmain := claim_C4_idempotent_second_run c4wCfg c4wWorld 3 [] 0 100 r1 r2
    hr1 hr2
    ⟨by simp, by intro rec h; simp at h⟩
    (by
      intro rm hrm entry he
      rw [hd1] at hrm
      simp only [List.mem_singleton] at hrm
      subst hrm
      exact (entryShapeOk_spec c4wCfg c4wWorld.fetch "a/a" rfl).1 entry he)
    (by
      intro rm hrm e he
      rw [hd1] at hrm
      simp only [List.mem_singleton] at hrm
      subst hrm
      exact (entryShapeOk_spec c4wCfg c4wWorld.fetch "a/a" rfl).2 e he)
    (by
      intro rm hrm rec hrec
      simp [storeFind] at hrec)
    (by
      intro rm hrm entry he
      rw [hd1] at hrm
      simp only [List.mem_singleton] at hrm
      subst hrm
      exact markerOk_spec c4wCfg c4wWorld.fetch "a/a" "m1" rfl entry he)
    (by
      intro rm hrm rec hrec
      rw [hd1] at hrm
      simp only [List.mem_singleton] at hrm
      subst hrm
      exact storeFreshOk_spec r1.store "a/a" 100 _ hfr rec hrec)
  exact ⟨r1, r2, hr1, hr2, hmain.1, hmain.2.1, hmain.2.2.1, hmain.2.2.2⟩

end Indexer
